import Mathlib

/-!
Verification of the codepoint-registry synchronization engine of
`zmk_locale_generator` (`zmk_locale_generator/update_codepoints.py`).

The Python code is shallowly embedded:

* A codepoint (a one-character Python string, ordered by scalar value) is a
  `Nat` (its scalar value); Python's lexicographic comparison of one-character
  strings coincides with comparison of the scalar values.
* A `CommentedMap` block group is a `BlockGroup`: an ordered association list of
  entries (key, value, end-of-line comment) plus a "before" comment slot.
* `CodepointNamesRaw` (the full registry) is a `List BlockGroup`.
* Python exceptions (`StopIteration` from `next`, `IndexError` from `[0]` on an
  empty key list) are an explicit `PyErr` error value threaded with `Except`.
* The external collaborators `is_visible_character` (module
  `zmk_locale_generator.codepoints`) and `unicodedata.name` (stdlib) are
  parameters of the functions that use them: `is_visible : Nat → Bool` and a
  `uni_name : Nat → Option String` where `none` models `ValueError`.
-/

namespace ZmkLocale

/-- A Python exception escaping from the reconciliation code:
`StopIteration` from `next(...)` with an exhausted generator, or `IndexError`
from `list(map.keys())[0]` on an empty mapping. -/
inductive PyErr where
  | stopIteration : PyErr
  | indexError : PyErr
deriving DecidableEq, Repr

/-- `UnicodeBlock` dataclass: a contiguous range of codepoints with a name.
The Python fields `start`/`end` hold one-character strings; they are embedded
as scalar values.  `end` is a Lean keyword, hence the field name `endCp`. -/
structure UnicodeBlock where
  start : Nat
  endCp : Nat
  name : String
deriving DecidableEq, Repr

/-- A registry value: either a single name string or a list of name strings. -/
inductive NameValue where
  | str : String → NameValue
  | list : List String → NameValue
deriving DecidableEq, Repr

/-- Python truthiness of a `NameValue` negated (`not item[c]`): the empty
string and the empty list are falsy. -/
def NameValue.falsy : NameValue → Bool
  | .str s => s = ""
  | .list l => l = []

/-- One key/value pair of a `CommentedMap`, together with its attached
end-of-line comment (ruamel stores these alongside the data). -/
structure Entry where
  key : Nat
  value : NameValue
  comment : Option String := none
deriving DecidableEq, Repr

/-- One `CommentedMap` of the registry: the ordered entries plus the comment
set before the map (ruamel's `yaml_set_comment_before_after_key` slot). -/
structure BlockGroup where
  entries : List Entry
  beforeComment : Option String := none
deriving DecidableEq, Repr

/-- `upper_bound(seq, val, gt)`: index of the first item of `seq` for which
`gt` holds against `val`; `len(seq)` when none does. -/
def upper_bound {α β : Type} (seq : List α) (val : β) (gt : α → β → Bool) : Nat :=
  match seq with
  | [] => 0
  | x :: xs => if gt x val then 0 else upper_bound xs val gt + 1

/-- `first_key(map)`: `list(map.keys())[0]`; `none` models the `IndexError`
raised on an empty mapping. -/
def first_key (g : BlockGroup) : Option Nat :=
  g.entries.head?.map Entry.key

/-- `codepoint_to_block(c, blocks)`: the first block whose range contains `c`;
`none` models the `StopIteration` raised by `next` when no block matches. -/
def codepoint_to_block (c : Nat) (blocks : List UnicodeBlock) : Option UnicodeBlock :=
  blocks.find? fun b => decide (b.start ≤ c ∧ c ≤ b.endCp)

/-- The generator scan of `find_block`:
`next(b for b in codepoints if block.start <= first_key(b) <= block.end)`.
Returns the index of the first group whose first key lies in `block`'s range,
`ok none` when the generator is exhausted (`StopIteration`, caught by the
caller), or `error indexError` when `first_key` is applied to an empty group
before a match is found. -/
def find_block_scan (block : UnicodeBlock) : List BlockGroup → Except PyErr (Option Nat)
  | [] => .ok none
  | g :: gs =>
    match first_key g with
    | none => .error .indexError
    | some k =>
      if block.start ≤ k ∧ k ≤ block.endCp then .ok (some 0)
      else
        match find_block_scan block gs with
        | .ok none => .ok none
        | .ok (some i) => .ok (some (i + 1))
        | .error e => .error e

/-- `compare_blocks(a, b)` from the `except StopIteration` branch of
`find_block`: `first_key(a) > b.end`.  The `none` case is unreachable at its
call site: the branch only runs after the scan has read the first key of every
group, so no group is empty there. -/
def compare_blocks (a : BlockGroup) (b : UnicodeBlock) : Bool :=
  match first_key a with
  | some k => decide (k > b.endCp)
  | none => false

/-- `find_block(codepoints, block)`: index of the group for `block`, creating
an empty group at the upper-bound position when none exists.  Returns the
index together with the (possibly extended) registry; the Python function
returns a reference into the mutated list. -/
def find_block (codepoints : List BlockGroup) (block : UnicodeBlock) :
    Except PyErr (Nat × List BlockGroup) :=
  match find_block_scan block codepoints with
  | .error e => .error e
  | .ok (some i) => .ok (i, codepoints)
  | .ok none =>
    let index := upper_bound codepoints block compare_blocks
    .ok (index, codepoints.insertIdx index ⟨[], none⟩)

/-- `remove_unused_codepoints(codepoints, used)`: delete from every group each
key not in `used` (ruamel's `del` also drops the entry's comment, which is
carried on the entry here). -/
def remove_unused_codepoints (codepoints : List BlockGroup) (used : List Nat) :
    List BlockGroup :=
  codepoints.map fun g => ⟨g.entries.filter (fun e => used.contains e.key), g.beforeComment⟩

/-- The body of the `add_new_codepoint_placeholders` loop acting on the group
returned by `find_block`: `if c not in block: block.insert(upper_bound(block.keys(), c), c, "")`.
The default comparator of `upper_bound` is `a > b`. -/
def insert_placeholder (g : BlockGroup) (c : Nat) : BlockGroup :=
  if g.entries.any (fun e => e.key == c) then g
  else
    let pos := upper_bound (g.entries.map Entry.key) c (fun a b => decide (a > b))
    ⟨g.entries.insertIdx pos ⟨c, .str "", none⟩, g.beforeComment⟩

/-- One iteration of the `for c in used` loop of
`add_new_codepoint_placeholders`: look up the block of `c`, find or create its
group, and insert the placeholder.  The index returned by `find_block` is
always in range, so `getD` never falls back to its default. -/
def add_placeholder_step (blocks : List UnicodeBlock) (codepoints : List BlockGroup)
    (c : Nat) : Except PyErr (List BlockGroup) :=
  match codepoint_to_block c blocks with
  | none => .error .stopIteration
  | some b =>
    match find_block codepoints b with
    | .error e => .error e
    | .ok (i, reg) => .ok (reg.set i (insert_placeholder (reg.getD i ⟨[], none⟩) c))

/-- `add_new_codepoint_placeholders(codepoints, blocks, used)`. -/
def add_new_codepoint_placeholders (codepoints : List BlockGroup)
    (blocks : List UnicodeBlock) (used : List Nat) : Except PyErr (List BlockGroup) :=
  used.foldlM (fun reg c => add_placeholder_step blocks reg c) codepoints

/-- All codepoint keys present across the groups of a registry. -/
def registry_keys (reg : List BlockGroup) : List Nat :=
  (reg.map fun g => g.entries.map Entry.key).flatten

/-- The values bound to codepoint `c` across the registry, in document order. -/
def bindings_for (reg : List BlockGroup) (c : Nat) : List NameValue :=
  (reg.map fun g => (g.entries.filter (fun e => e.key = c)).map Entry.value).flatten

/-- The value a reader of the serialized document associates with `c`: the
first binding in document order. -/
def registry_lookup (reg : List BlockGroup) (c : Nat) : Option NameValue :=
  (bindings_for reg c).head?

/-- `c` lies in the range of block `b` (the chained comparison
`b.start <= c <= b.end`). -/
def block_contains (b : UnicodeBlock) (c : Nat) : Prop :=
  b.start ≤ c ∧ c ≤ b.endCp

instance (b : UnicodeBlock) (c : Nat) : Decidable (block_contains b c) :=
  inferInstanceAs (Decidable (b.start ≤ c ∧ c ≤ b.endCp))

/-- The spec's assumptions on the block table: `start ≤ end` for every block,
and the blocks are sorted and non-overlapping (each block ends strictly before
the next begins). -/
def blocksWF (blocks : List UnicodeBlock) : Prop :=
  (∀ b ∈ blocks, b.start ≤ b.endCp) ∧
    List.Pairwise (fun b b' => b.endCp < b'.start) blocks

instance (blocks : List UnicodeBlock) : Decidable (blocksWF blocks) :=
  inferInstanceAs (Decidable ((∀ b ∈ blocks, b.start ≤ b.endCp) ∧
    List.Pairwise (fun b b' : UnicodeBlock => b.endCp < b'.start) blocks))

/-- Data-model invariant: within every group the entry keys are strictly
increasing. -/
def entriesSorted (reg : List BlockGroup) : Prop :=
  ∀ g ∈ reg, List.Chain' (fun e e' : Entry => e.key < e'.key) g.entries

/-- Executable strict-ascending check on entry keys, mirroring
`List.Chain'`. -/
def chainKeyLt : List Entry → Bool
  | [] => true
  | [_] => true
  | e :: e' :: rest => decide (e.key < e'.key) && chainKeyLt (e' :: rest)

theorem chainKeyLt_iff : ∀ {l : List Entry},
    chainKeyLt l = true ↔ List.Chain' (fun e e' : Entry => e.key < e'.key) l := by
  intro l
  match l with
  | [] => simp [chainKeyLt]
  | [e] => simp [chainKeyLt]
  | e :: e' :: rest =>
    rw [chainKeyLt, List.chain'_cons]
    have := @chainKeyLt_iff (e' :: rest)
    rw [Bool.and_eq_true, this]
    simp

instance (reg : List BlockGroup) : Decidable (entriesSorted reg) :=
  decidable_of_iff (∀ g ∈ reg, chainKeyLt g.entries = true)
    (by unfold entriesSorted; exact forall₂_congr fun g _ => chainKeyLt_iff)

/-- Data-model invariant: every key of every group is covered by the block
table. -/
def keysCovered (blocks : List UnicodeBlock) (reg : List BlockGroup) : Prop :=
  ∀ g ∈ reg, ∀ e ∈ g.entries, (codepoint_to_block e.key blocks).isSome

instance (blocks : List UnicodeBlock) (reg : List BlockGroup) :
    Decidable (keysCovered blocks reg) :=
  inferInstanceAs (Decidable
    (∀ g ∈ reg, ∀ e ∈ g.entries, (codepoint_to_block e.key blocks).isSome))

/-- Data-model invariant: all keys of one group belong to one Unicode block. -/
def groupsHomogeneous (blocks : List UnicodeBlock) (reg : List BlockGroup) : Prop :=
  ∀ g ∈ reg, ∀ e ∈ g.entries, ∀ e' ∈ g.entries,
    codepoint_to_block e.key blocks = codepoint_to_block e'.key blocks

instance (blocks : List UnicodeBlock) (reg : List BlockGroup) :
    Decidable (groupsHomogeneous blocks reg) :=
  inferInstanceAs (Decidable (∀ g ∈ reg, ∀ e ∈ g.entries, ∀ e' ∈ g.entries,
    codepoint_to_block e.key blocks = codepoint_to_block e'.key blocks))

/-- Data-model invariant: the groups are ordered: every key of an earlier
group is smaller than every key of a later group, and distinct groups lie in
distinct Unicode blocks. -/
def groupsOrdered (blocks : List UnicodeBlock) (reg : List BlockGroup) : Prop :=
  List.Pairwise
    (fun g g' => ∀ e ∈ g.entries, ∀ e' ∈ g'.entries,
      e.key < e'.key ∧
        codepoint_to_block e.key blocks ≠ codepoint_to_block e'.key blocks)
    reg

instance (blocks : List UnicodeBlock) (reg : List BlockGroup) :
    Decidable (groupsOrdered blocks reg) :=
  inferInstanceAs (Decidable (List.Pairwise
    (fun g g' : BlockGroup => ∀ e ∈ g.entries, ∀ e' ∈ g'.entries,
      e.key < e'.key ∧
        codepoint_to_block e.key blocks ≠ codepoint_to_block e'.key blocks)
    reg))

/-- The registry invariant package of the spec's data model (section 3):
sorted entries, covered keys, one block per group, ordered groups. -/
def registryWF (blocks : List UnicodeBlock) (reg : List BlockGroup) : Prop :=
  entriesSorted reg ∧ keysCovered blocks reg ∧ groupsHomogeneous blocks reg ∧
    groupsOrdered blocks reg

instance (blocks : List UnicodeBlock) (reg : List BlockGroup) :
    Decidable (registryWF blocks reg) :=
  inferInstanceAs (Decidable (entriesSorted reg ∧ keysCovered blocks reg ∧
    groupsHomogeneous blocks reg ∧ groupsOrdered blocks reg))

theorem length_dropWhile_le {α : Type} (p : α → Bool) (l : List α) :
    (l.dropWhile p).length ≤ l.length := by
  induction l with
  | nil => simp [List.dropWhile]
  | cons a l ih =>
    simp only [List.dropWhile]
    cases p a
    · simp
    · simp
      omega

/-- A character of Python's `\w` class, for the ASCII character names produced
by `unicodedata.name` (letters, digits, underscore). -/
def word_char (ch : Char) : Bool :=
  ch.isAlphanum || ch == '_'

/-- `re.sub(r"[^\w]+", "_", s)` as a one-pass state machine: the flag records
whether the scanner is inside a non-word run (whose first character has
already emitted the underscore). -/
def collapse_nonword_aux : Bool → List Char → List Char
  | _, [] => []
  | inRun, ch :: rest =>
    if word_char ch then ch :: collapse_nonword_aux false rest
    else if inRun then collapse_nonword_aux true rest
    else '_' :: collapse_nonword_aux true rest

/-- `re.sub(r"[^\w]+", "_", s)`: every maximal run of non-word characters is
replaced by a single underscore. -/
def collapse_nonword (l : List Char) : List Char :=
  collapse_nonword_aux false l

/-- `get_char_comments(item, c)` as the list of yielded fragments, with the
external `is_visible_character` and `unicodedata.name` as parameters (`v` is
`item[c]`).  The first fragment is the literal character or
`"(non-printable)"`; when `item[c]` is falsy and the codepoint has a standard
name, the collapsed upper-cased name follows (`ValueError`, modelled by
`none`, is swallowed by the `except` clause). -/
def get_char_comments (is_visible : Nat → Bool) (uni_name : Nat → Option String)
    (v : NameValue) (c : Nat) : List String :=
  (if is_visible c then String.singleton (Char.ofNat c) else "(non-printable)") ::
    (if v.falsy then
      match uni_name c with
      | some nm => [String.mk (collapse_nonword (nm.data.map Char.toUpper))]
      | none => []
    else [])

/-- The body of the `for i, item in enumerate(codepoints)` loop of
`add_codepoint_comments` for one group: compute the block from the first key,
set the before-comment to the block name, and set every entry's end-of-line
comment to `"# "` plus the joined fragments when the joined string is
non-empty (`if comment := ...`). -/
def annotate_group (is_visible : Nat → Bool) (uni_name : Nat → Option String)
    (blocks : List UnicodeBlock) (g : BlockGroup) : Except PyErr BlockGroup :=
  match first_key g with
  | none => .error .indexError
  | some k =>
    match codepoint_to_block k blocks with
    | none => .error .stopIteration
    | some b =>
      .ok ⟨g.entries.map fun e =>
            let comment :=
              String.intercalate " " (get_char_comments is_visible uni_name e.value e.key)
            if comment = "" then e
            else ⟨e.key, e.value, some ("# " ++ comment)⟩,
          some ("\n" ++ b.name)⟩

/-- `add_codepoint_comments(codepoints, blocks)`: the annotation loop over all
groups, stopping at the first raised exception. -/
def add_codepoint_comments (is_visible : Nat → Bool) (uni_name : Nat → Option String)
    (blocks : List UnicodeBlock) (codepoints : List BlockGroup) :
    Except PyErr (List BlockGroup) :=
  codepoints.mapM (annotate_group is_visible uni_name blocks)

/-- The in-memory pipeline of `update_codepoints` between loading and dumping:
`remove_unused_codepoints`, `add_new_codepoint_placeholders`,
`add_codepoint_comments`. -/
def reconcile_annotate (is_visible : Nat → Bool) (uni_name : Nat → Option String)
    (blocks : List UnicodeBlock) (used : List Nat) (codepoints : List BlockGroup) :
    Except PyErr (List BlockGroup) := do
  let r2 ← add_new_codepoint_placeholders
    (remove_unused_codepoints codepoints used) blocks used
  add_codepoint_comments is_visible uni_name blocks r2

/-! ### The `transform` text post-processing pass -/

/-- One hexadecimal digit, upper case. -/
def hex_digit (n : Nat) : Char :=
  if n < 10 then Char.ofNat (48 + n) else Char.ofNat (55 + n)

/-- Division loop for the hexadecimal digits, driven by a fuel counter large
enough for every codepoint (`n + 1` iterations always suffice). -/
def hex_digits_go : Nat → Nat → List Char
  | 0, _ => []
  | fuel + 1, n =>
    if n < 16 then [hex_digit n]
    else hex_digits_go fuel (n / 16) ++ [hex_digit (n % 16)]

/-- Hexadecimal digits of `n`, most significant first, upper case
(`X` format). -/
def hex_digits (n : Nat) : List Char :=
  hex_digits_go (n + 1) n

/-- `f'"\\u{ord(c):04X}"'`: the replacement written by `escape_key` for the
character with scalar value `n` (zero-padded to at least four digits). -/
def escape_replacement (n : Nat) : List Char :=
  '"' :: '\\' :: 'u' ::
    (List.replicate (4 - (hex_digits n).length) '0' ++ hex_digits n) ++ ['"']

/-- The indices `i ≥ lo` of `m` at which character `q` is followed by `:`. -/
def quote_colon_positions (q : Char) (lo : Nat) (m : List Char) : List Nat :=
  (List.range m.length).filter fun i =>
    lo ≤ i ∧ m.get? i = some q ∧ m.get? (i + 1) = some ':'

/-- The indices `j ≥ lo` of `m` holding a `:`. -/
def colon_positions (lo : Nat) (m : List Char) : List Nat :=
  (List.range m.length).filter fun j => lo ≤ j ∧ m.get? j = some ':'

/-- The match of `KEY_RE`'s group 1 against `m` (the line after its two-char
prefix): the greedy quoted form `q .+ q` (backreference) followed by `:` when
the line starts with a quote and a closing `q:` exists; otherwise the greedy
unquoted form `.+` followed by `:`.  Returns the matched key and the rest of
the line starting at the `:`. -/
def key_match (m : List Char) : Option (List Char × List Char) :=
  let unquoted : Option (List Char × List Char) :=
    match (colon_positions 1 m).getLast? with
    | some j => some (m.take j, m.drop j)
    | none => none
  match m with
  | q :: _ =>
    if q = '"' ∨ q = '\'' then
      match (quote_colon_positions q 2 m).getLast? with
      | some i => some (m.take (i + 1), m.drop (i + 1))
      | none => unquoted
    else unquoted
  | [] => none

/-- `COMMENT_PAD_RE.sub(" #", line)` as a one-pass state machine: `pending`
counts spaces read but not yet written; a `#` ending a non-empty pending run
collapses it to one space, anything else flushes it verbatim. -/
def collapse_pad_aux : Nat → List Char → List Char
  | pending, [] => List.replicate pending ' '
  | pending, ch :: rest =>
    if ch = ' ' then collapse_pad_aux (pending + 1) rest
    else if ch = '#' then
      if pending = 0 then '#' :: collapse_pad_aux 0 rest
      else ' ' :: '#' :: collapse_pad_aux 0 rest
    else List.replicate pending ' ' ++ ch :: collapse_pad_aux 0 rest

/-- `COMMENT_PAD_RE.sub(" #", line)`: every maximal run of spaces immediately
followed by `#` becomes a single space. -/
def collapse_pad (l : List Char) : List Char :=
  collapse_pad_aux 0 l

/-- `transform_line(line)`: apply `KEY_RE.sub(escape_key, ...)` (the lookbehind
anchors the single possible match at position 2, after a `"- "` or `"  "` line
start) and then `COMMENT_PAD_RE.sub(" #", ...)`.  The external
`yaml.load`-then-`ord` of `escape_key` is the parameter `yload`. -/
def transform_line (yload : List Char → Nat) (l : List Char) : List Char :=
  collapse_pad <|
    match l with
    | p1 :: p2 :: m =>
      if (p1 = '-' ∧ p2 = ' ') ∨ (p1 = ' ' ∧ p2 = ' ') then
        match key_match m with
        | some (key, rest) => p1 :: p2 :: (escape_replacement (yload key) ++ rest)
        | none => l
      else l
    | _ => l

/-- `transform(text)`: the per-line pass joined with newlines. -/
def transform (yload : List Char → Nat) (text : String) : String :=
  String.intercalate "\n"
    (((text.splitOn "\n").map fun s => String.mk (transform_line yload s.data)))

/-- Observation: does the line begin with two spaces directly followed by a
comment marker (`"  #"`)?  Matching `COMMENT_PAD_RE` with at least two
spaces of padding. -/
def starts_pad (l : List Char) : Bool :=
  match l with
  | c1 :: c2 :: c3 :: _ => c1 = ' ' && c2 = ' ' && c3 = '#'
  | _ => false

/-- Observation: does the line contain `"  #"` (two or more consecutive spaces
directly before a comment marker) anywhere? -/
def has_pad : List Char → Bool
  | [] => false
  | ch :: rest => starts_pad (ch :: rest) || has_pad rest

/-! ### Helper lemmas about `codepoint_to_block` -/

theorem ctb_some_mem {blocks : List UnicodeBlock} {c : Nat} {b : UnicodeBlock}
    (h : codepoint_to_block c blocks = some b) : b ∈ blocks ∧ block_contains b c := by
  constructor
  · exact List.mem_of_find?_eq_some h
  · have := List.find?_some h
    simpa [block_contains] using this

theorem ctb_none_iff {blocks : List UnicodeBlock} {c : Nat} :
    codepoint_to_block c blocks = none ↔ ∀ b ∈ blocks, ¬ block_contains b c := by
  unfold codepoint_to_block
  rw [List.find?_eq_none]
  constructor
  · intro h b hb hc
    have := h b hb
    simp [block_contains] at hc this
    omega
  · intro h b hb
    have := h b hb
    simp [block_contains] at this ⊢
    omega

theorem ctb_first {blocks : List UnicodeBlock} {c : Nat} {b : UnicodeBlock}
    (h : codepoint_to_block c blocks = some b) :
    ∃ pre post, blocks = pre ++ b :: post ∧ ∀ b' ∈ pre, ¬ block_contains b' c := by
  induction blocks with
  | nil => simp [codepoint_to_block] at h
  | cons hd tl ih =>
    rw [codepoint_to_block, List.find?_cons] at h
    by_cases hc : block_contains hd c
    · have : decide (hd.start ≤ c ∧ c ≤ hd.endCp) = true := by
        simpa [block_contains] using hc
      rw [this] at h
      exact ⟨[], tl, by simpa using h, by simp⟩
    · have : decide (hd.start ≤ c ∧ c ≤ hd.endCp) = false := by
        simpa [block_contains] using hc
      rw [this] at h
      obtain ⟨pre, post, heq, hpre⟩ := ih h
      refine ⟨hd :: pre, post, by simp [heq], ?_⟩
      intro b' hb'
      rcases List.mem_cons.mp hb' with rfl | hb'
      · exact hc
      · exact hpre b' hb'

/-- With a well-formed block table, `codepoint_to_block` finds any member
block containing the codepoint. -/
theorem ctb_of_mem_contains {blocks : List UnicodeBlock} {c : Nat} {b : UnicodeBlock}
    (hwf : blocksWF blocks) (hb : b ∈ blocks) (hc : block_contains b c) :
    codepoint_to_block c blocks = some b := by
  obtain ⟨-, hpair⟩ := hwf
  induction blocks with
  | nil => simp at hb
  | cons hd tl ih =>
    rw [List.pairwise_cons] at hpair
    rcases List.mem_cons.mp hb with rfl | hb'
    · rw [codepoint_to_block, List.find?_cons]
      have : decide (b.start ≤ c ∧ c ≤ b.endCp) = true := by
        simpa [block_contains] using hc
      rw [this]
    · rw [codepoint_to_block, List.find?_cons]
      have hlt := hpair.1 b hb'
      have : decide (hd.start ≤ c ∧ c ≤ hd.endCp) = false := by
        obtain ⟨h1, h2⟩ := hc
        simp
        intro h3
        omega
      rw [this]
      exact ih hb' hpair.2

/-- Two distinct blocks of a well-formed table are disjoint and ordered by any
pair of inhabitants: if `x ∈ b`, `y ∈ b'` and `x < y` then all of `b` lies
below all of `b'`. -/
theorem blocks_order {blocks : List UnicodeBlock} {b b' : UnicodeBlock} {x y : Nat}
    (hwf : blocksWF blocks) (hb : b ∈ blocks) (hb' : b' ∈ blocks) (hne : b ≠ b')
    (hx : block_contains b x) (hy : block_contains b' y) (hxy : x < y) :
    b.endCp < b'.start := by
  obtain ⟨-, hpair⟩ := hwf
  have hsym : List.Pairwise (fun u v => u.endCp < v.start ∨ v.endCp < u.start) blocks :=
    hpair.imp Or.inl
  have := hsym.forall (fun u v h => h.symm) hb hb'
  rcases this hne with h | h
  · exact h
  · obtain ⟨h1, h2⟩ := hx
    obtain ⟨h3, h4⟩ := hy
    omega

/-- C5: `codepoint_to_block` is total on covered codepoints and partial
otherwise: when it returns a block, that block is the first member of the list
whose range contains the codepoint (never a wrong block); it returns `none`
exactly when no block of the list contains the codepoint. -/
theorem codepoint_to_block_first_or_none (blocks : List UnicodeBlock) (c : Nat) :
    (∀ b, codepoint_to_block c blocks = some b →
        b ∈ blocks ∧ block_contains b c ∧
          ∃ pre post, blocks = pre ++ b :: post ∧ ∀ b' ∈ pre, ¬ block_contains b' c) ∧
      ((∃ b ∈ blocks, block_contains b c) → (codepoint_to_block c blocks).isSome) ∧
      (codepoint_to_block c blocks = none ↔ ∀ b ∈ blocks, ¬ block_contains b c) := by
  refine ⟨?_, ?_, ctb_none_iff⟩
  · intro b h
    exact ⟨(ctb_some_mem h).1, (ctb_some_mem h).2, ctb_first h⟩
  · intro ⟨b, hb, hc⟩
    cases h : codepoint_to_block c blocks with
    | none => exact absurd hc (ctb_none_iff.mp h b hb)
    | some b' => simp

theorem codepoint_to_block_first_or_none_witness :
    ((⟨0, 10, "Basic"⟩ : UnicodeBlock) ∈ [(⟨0, 10, "Basic"⟩ : UnicodeBlock)] ∧
        block_contains ⟨0, 10, "Basic"⟩ 5 ∧
          ∃ pre post, [(⟨0, 10, "Basic"⟩ : UnicodeBlock)] = pre ++ ⟨0, 10, "Basic"⟩ :: post ∧
            ∀ b' ∈ pre, ¬ block_contains b' 5) ∧
      codepoint_to_block 21 [(⟨0, 10, "Basic"⟩ : UnicodeBlock)] = none :=
  ⟨(codepoint_to_block_first_or_none [⟨0, 10, "Basic"⟩] 5).1 ⟨0, 10, "Basic"⟩ (by decide),
    (codepoint_to_block_first_or_none [⟨0, 10, "Basic"⟩] 21).2.2.mpr (by decide)⟩

/-! ### List splitting utilities -/

theorem insertIdx_split {α : Type} (l1 l2 : List α) (a : α) :
    (l1 ++ l2).insertIdx l1.length a = l1 ++ a :: l2 := by
  induction l1 with
  | nil => simp
  | cons x xs ih => simp [List.insertIdx_succ_cons, ih]

theorem set_split {α : Type} (l1 l2 : List α) (x y : α) :
    (l1 ++ x :: l2).set l1.length y = l1 ++ y :: l2 := by
  induction l1 with
  | nil => simp
  | cons z zs ih => simp [List.set_cons_succ, ih]

theorem getD_split {α : Type} (l1 l2 : List α) (x d : α) :
    (l1 ++ x :: l2).getD l1.length d = x := by
  induction l1 with
  | nil => simp
  | cons z zs ih => simpa [List.getD] using ih

/-! ### Characterizations of `upper_bound`, the `find_block` scan, and one
placeholder-insertion step -/

theorem upper_bound_split {α β : Type} (seq : List α) (val : β) (gt : α → β → Bool) :
    ∃ pre post, seq = pre ++ post ∧ pre.length = upper_bound seq val gt ∧
      (∀ x ∈ pre, gt x val = false) ∧ ∀ h : post ≠ [], gt (post.head h) val = true := by
  induction seq with
  | nil => exact ⟨[], [], by simp, by simp [upper_bound], by simp, by simp⟩
  | cons x xs ih =>
    by_cases hx : gt x val
    · refine ⟨[], x :: xs, by simp, by simp [upper_bound, hx], by simp, ?_⟩
      intro h
      exact hx
    · obtain ⟨pre, post, heq, hlen, hpre, hpost⟩ := ih
      refine ⟨x :: pre, post, by simp [heq], ?_, ?_, hpost⟩
      · simp [upper_bound, hx, hlen]
      · intro y hy
        rcases List.mem_cons.mp hy with rfl | hy
        · simpa using hx
        · exact hpre y hy

theorem scan_ok_some {B : UnicodeBlock} {reg : List BlockGroup} {i : Nat}
    (h : find_block_scan B reg = .ok (some i)) :
    ∃ pre g post k, reg = pre ++ g :: post ∧ pre.length = i ∧
      first_key g = some k ∧ block_contains B k ∧
      ∀ g' ∈ pre, ∃ k', first_key g' = some k' ∧ ¬ block_contains B k' := by
  induction reg generalizing i with
  | nil => simp [find_block_scan] at h
  | cons g gs ih =>
    rw [find_block_scan] at h
    cases hk : first_key g with
    | none => simp [hk] at h
    | some k =>
      simp only [hk] at h
      by_cases hc : B.start ≤ k ∧ k ≤ B.endCp
      · rw [if_pos hc] at h
        obtain rfl : (0 : Nat) = i := by simpa using h
        exact ⟨[], g, gs, k, by simp, by simp, hk, hc, by simp⟩
      · rw [if_neg hc] at h
        cases hs : find_block_scan B gs with
        | error e => simp [hs] at h
        | ok o =>
          cases o with
          | none => simp [hs] at h
          | some j =>
            simp only [hs] at h
            obtain rfl : j + 1 = i := by simpa using h
            obtain ⟨pre, g', post, k', heq, hlen, hk', hc', hpre⟩ := ih hs
            refine ⟨g :: pre, g', post, k', by simp [heq], by simp [hlen], hk', hc', ?_⟩
            intro x hx
            rcases List.mem_cons.mp hx with rfl | hx
            · exact ⟨k, hk, hc⟩
            · exact hpre x hx

theorem scan_ok_none {B : UnicodeBlock} {reg : List BlockGroup}
    (h : find_block_scan B reg = .ok none) :
    ∀ g ∈ reg, ∃ k, first_key g = some k ∧ ¬ block_contains B k := by
  induction reg with
  | nil => simp
  | cons g gs ih =>
    rw [find_block_scan] at h
    cases hk : first_key g with
    | none => simp [hk] at h
    | some k =>
      simp only [hk] at h
      by_cases hc : B.start ≤ k ∧ k ≤ B.endCp
      · rw [if_pos hc] at h; exact absurd h (by simp)
      · rw [if_neg hc] at h
        cases hs : find_block_scan B gs with
        | error e => simp [hs] at h
        | ok o =>
          cases o with
          | some j => simp [hs] at h
          | none =>
            intro x hx
            rcases List.mem_cons.mp hx with rfl | hx
            · exact ⟨k, hk, hc⟩
            · exact ih hs x hx

/-- Anatomy of one successful iteration of the `add_new_codepoint_placeholders`
loop: either the scan found the first group whose first key lies in the block
of `c` and the placeholder was inserted there, or no group's first key lies in
that block and a fresh group holding only `c` was inserted at the upper-bound
position. -/
theorem step_shape {blocks : List UnicodeBlock} {reg reg' : List BlockGroup} {c : Nat}
    (h : add_placeholder_step blocks reg c = .ok reg') :
    ∃ B, codepoint_to_block c blocks = some B ∧
      ((∃ pre g post k, reg = pre ++ g :: post ∧ first_key g = some k ∧
          block_contains B k ∧
          (∀ g' ∈ pre, ∃ k', first_key g' = some k' ∧ ¬ block_contains B k') ∧
          reg' = pre ++ insert_placeholder g c :: post) ∨
        (∃ pre post, reg = pre ++ post ∧
          (∀ g' ∈ reg, ∃ k', first_key g' = some k' ∧ ¬ block_contains B k') ∧
          (∀ x ∈ pre, compare_blocks x B = false) ∧
          (∀ h : post ≠ [], compare_blocks (post.head h) B = true) ∧
          reg' = pre ++ insert_placeholder ⟨[], none⟩ c :: post)) := by
  rw [add_placeholder_step] at h
  cases hb : codepoint_to_block c blocks with
  | none => simp [hb] at h
  | some B =>
    simp only [hb] at h
    refine ⟨B, rfl, ?_⟩
    simp only [find_block] at h
    cases hs : find_block_scan B reg with
    | error e => simp [hs] at h
    | ok o =>
      cases o with
      | some i =>
        simp only [hs] at h
        obtain ⟨pre, g, post, k, heq, hlen, hk, hc, hpre⟩ := scan_ok_some hs
        left
        refine ⟨pre, g, post, k, heq, hk, hc, hpre, ?_⟩
        have h' : reg.set i (insert_placeholder (reg.getD i ⟨[], none⟩) c) = reg' := by
          simpa using h
        rw [heq, ← hlen, getD_split, set_split] at h'
        exact h'.symm
      | none =>
        simp only [hs] at h
        right
        obtain ⟨pre, post, heq, hlen, hpre, hpost⟩ :=
          upper_bound_split reg B compare_blocks
        have hins : (reg.insertIdx (upper_bound reg B compare_blocks) ⟨[], none⟩)
            = pre ++ (⟨[], none⟩ : BlockGroup) :: post := by
          rw [← hlen, heq, insertIdx_split]
        have h' : (reg.insertIdx (upper_bound reg B compare_blocks) ⟨[], none⟩).set
            (upper_bound reg B compare_blocks)
            (insert_placeholder
              ((reg.insertIdx (upper_bound reg B compare_blocks) ⟨[], none⟩).getD
                (upper_bound reg B compare_blocks) ⟨[], none⟩) c) = reg' := by
          simpa using h
        rw [hins, ← hlen, getD_split, set_split] at h'
        exact ⟨pre, post, heq, scan_ok_none hs, hpre, hpost, h'.symm⟩

/-! ### C10: empty groups make the pipeline fail -/

theorem except_error_bind {e : PyErr} {α β : Type} (f : α → Except PyErr β) :
    (Except.error e >>= f) = Except.error e := rfl

theorem except_ok_bind {α β : Type} (a : α) (f : α → Except PyErr β) :
    (Except.ok a >>= f) = f a := rfl

theorem first_key_ne_none_of_some {g : BlockGroup} {k : Nat}
    (h : first_key g = some k) : g.entries ≠ [] := by
  intro he
  rw [first_key, he] at h
  simp at h

theorem step_preserves_empty {blocks : List UnicodeBlock} {reg reg' : List BlockGroup}
    {c : Nat} (hs : add_placeholder_step blocks reg c = .ok reg')
    (h : ∃ g ∈ reg, g.entries = []) : ∃ g ∈ reg', g.entries = [] := by
  obtain ⟨g0, hg0, hemp⟩ := h
  obtain ⟨B, -, hcase⟩ := step_shape hs
  rcases hcase with ⟨pre, g, post, k, heq, hk, -, -, heq'⟩ | ⟨pre, post, heq, -, -, -, heq'⟩
  · subst heq heq'
    rcases List.mem_append.mp hg0 with hp | hp
    · exact ⟨g0, List.mem_append_left _ hp, hemp⟩
    · rcases List.mem_cons.mp hp with rfl | hp
      · exact absurd hemp (first_key_ne_none_of_some hk)
      · exact ⟨g0, List.mem_append_right _ (List.mem_cons_of_mem _ hp), hemp⟩
  · subst heq heq'
    rcases List.mem_append.mp hg0 with hp | hp
    · exact ⟨g0, List.mem_append_left _ hp, hemp⟩
    · exact ⟨g0, List.mem_append_right _ (List.mem_cons_of_mem _ hp), hemp⟩

theorem fold_preserves_empty {blocks : List UnicodeBlock} {used : List Nat}
    {reg reg' : List BlockGroup}
    (hf : add_new_codepoint_placeholders reg blocks used = .ok reg')
    (h : ∃ g ∈ reg, g.entries = []) : ∃ g ∈ reg', g.entries = [] := by
  induction used generalizing reg with
  | nil =>
    rw [add_new_codepoint_placeholders] at hf
    obtain rfl : reg = reg' := Except.ok.inj hf
    exact h
  | cons c cs ih =>
    rw [add_new_codepoint_placeholders, List.foldlM_cons] at hf
    cases hstep : add_placeholder_step blocks reg c with
    | error e =>
      rw [hstep, except_error_bind] at hf
      exact absurd hf (by simp)
    | ok reg1 =>
      rw [hstep, except_ok_bind] at hf
      exact ih hf (step_preserves_empty hstep h)

theorem comments_error_of_empty {reg : List BlockGroup}
    (h : ∃ g ∈ reg, g.entries = []) (iv : Nat → Bool) (un : Nat → Option String)
    (blocks : List UnicodeBlock) :
    ∃ e, add_codepoint_comments iv un blocks reg = .error e := by
  induction reg with
  | nil => simp at h
  | cons g gs ih =>
    obtain ⟨g0, hg0, hemp⟩ := h
    rw [add_codepoint_comments, List.mapM_cons]
    rcases List.mem_cons.mp hg0 with rfl | hmem
    · have hfk : first_key g0 = none := by simp [first_key, hemp]
      refine ⟨.indexError, ?_⟩
      rw [annotate_group, hfk]
      rfl
    · cases hag : annotate_group iv un blocks g with
      | error e => exact ⟨e, rfl⟩
      | ok v =>
        obtain ⟨e, he⟩ := ih ⟨g0, hmem, hemp⟩
        rw [add_codepoint_comments] at he
        exact ⟨e, by rw [he]; rfl⟩

/-- C10: the annotation pass is partial on registries containing an empty
group: if `remove_unused_codepoints` empties some group (a group none of
whose codepoints remains used), the full reconcile-and-annotate pipeline
raises an exception (`IndexError` out of `first_key`, or an earlier error)
instead of completing — empty groups are not serialized harmlessly. -/
theorem pipeline_error_of_emptied_group (iv : Nat → Bool) (un : Nat → Option String)
    (blocks : List UnicodeBlock) (used : List Nat) (codepoints : List BlockGroup)
    (h : ∃ g ∈ codepoints, g.entries ≠ [] ∧
      g.entries.filter (fun e => used.contains e.key) = []) :
    ∃ e, reconcile_annotate iv un blocks used codepoints = .error e := by
  obtain ⟨g0, hg0, -, hfilter⟩ := h
  have hemp : ∃ g ∈ remove_unused_codepoints codepoints used, g.entries = [] := by
    refine ⟨⟨g0.entries.filter (fun e => used.contains e.key), g0.beforeComment⟩, ?_, hfilter⟩
    rw [remove_unused_codepoints]
    exact List.mem_map.mpr ⟨g0, hg0, rfl⟩
  rw [reconcile_annotate]
  cases hadd : add_new_codepoint_placeholders
      (remove_unused_codepoints codepoints used) blocks used with
  | error e => exact ⟨e, rfl⟩
  | ok r2 =>
    obtain ⟨e, he⟩ := comments_error_of_empty (fold_preserves_empty hadd hemp) iv un blocks
    exact ⟨e, he⟩

theorem pipeline_error_of_emptied_group_witness :
    (∃ g ∈ [(⟨[⟨65, .str "LETTER_A", none⟩], none⟩ : BlockGroup)], g.entries ≠ [] ∧
        g.entries.filter (fun e => List.contains [] e.key) = []) ∧
      ∃ e, reconcile_annotate (fun _ => true) (fun _ => none) [⟨0, 127, "Basic Latin"⟩] []
        [(⟨[⟨65, .str "LETTER_A", none⟩], none⟩ : BlockGroup)] = .error e :=
  ⟨by decide,
    pipeline_error_of_emptied_group (fun _ => true) (fun _ => none) [⟨0, 127, "Basic Latin"⟩]
      [] [⟨[⟨65, .str "LETTER_A", none⟩], none⟩] (by decide)⟩

/-! ### C1: key-set correspondence -/

theorem mem_registry_keys {reg : List BlockGroup} {k : Nat} :
    k ∈ registry_keys reg ↔ ∃ g ∈ reg, ∃ e ∈ g.entries, e.key = k := by
  simp [registry_keys]

theorem registry_keys_append (l1 l2 : List BlockGroup) :
    registry_keys (l1 ++ l2) = registry_keys l1 ++ registry_keys l2 := by
  simp [registry_keys]

theorem upper_bound_le_length {α β : Type} (seq : List α) (val : β) (gt : α → β → Bool) :
    upper_bound seq val gt ≤ seq.length := by
  obtain ⟨pre, post, heq, hlen, -, -⟩ := upper_bound_split seq val gt
  rw [← hlen, heq]
  simp

theorem mem_insert_placeholder_of_mem {g : BlockGroup} {c : Nat} {x : Entry}
    (h : x ∈ g.entries) : x ∈ (insert_placeholder g c).entries := by
  rw [insert_placeholder]
  by_cases hany : g.entries.any (fun e => e.key == c)
  · rw [if_pos hany]; exact h
  · rw [if_neg hany]
    have hle : upper_bound (g.entries.map Entry.key) c (fun a b => decide (a > b))
        ≤ g.entries.length := by
      have := upper_bound_le_length (g.entries.map Entry.key) c (fun a b => decide (a > b))
      simpa using this
    exact (List.mem_insertIdx hle).mpr (Or.inr h)

theorem mem_of_mem_insert_placeholder {g : BlockGroup} {c : Nat} {x : Entry}
    (h : x ∈ (insert_placeholder g c).entries) :
    x ∈ g.entries ∨ x = ⟨c, .str "", none⟩ := by
  rw [insert_placeholder] at h
  by_cases hany : g.entries.any (fun e => e.key == c)
  · rw [if_pos hany] at h; exact Or.inl h
  · rw [if_neg hany] at h
    have hle : upper_bound (g.entries.map Entry.key) c (fun a b => decide (a > b))
        ≤ g.entries.length := by
      have := upper_bound_le_length (g.entries.map Entry.key) c (fun a b => decide (a > b))
      simpa using this
    rcases (List.mem_insertIdx hle).mp h with h | h
    · exact Or.inr h
    · exact Or.inl h

theorem key_mem_insert_placeholder (g : BlockGroup) (c : Nat) :
    ∃ e ∈ (insert_placeholder g c).entries, e.key = c := by
  rw [insert_placeholder]
  by_cases hany : g.entries.any (fun e => e.key == c)
  · rw [if_pos hany]
    obtain ⟨e, he, hk⟩ := List.any_eq_true.mp hany
    exact ⟨e, he, by simpa using hk⟩
  · rw [if_neg hany]
    have hle : upper_bound (g.entries.map Entry.key) c (fun a b => decide (a > b))
        ≤ g.entries.length := by
      have := upper_bound_le_length (g.entries.map Entry.key) c (fun a b => decide (a > b))
      simpa using this
    exact ⟨⟨c, .str "", none⟩, (List.mem_insertIdx hle).mpr (Or.inl rfl), rfl⟩

theorem step_keys_superset {blocks : List UnicodeBlock} {reg reg' : List BlockGroup}
    {c k : Nat} (hs : add_placeholder_step blocks reg c = .ok reg')
    (h : k ∈ registry_keys reg) : k ∈ registry_keys reg' := by
  obtain ⟨B, -, hcase⟩ := step_shape hs
  obtain ⟨g0, hg0, e, he, rfl⟩ := mem_registry_keys.mp h
  rcases hcase with ⟨pre, g, post, k', heq, -, -, -, heq'⟩ | ⟨pre, post, heq, -, -, -, heq'⟩
  · subst heq heq'
    rcases List.mem_append.mp hg0 with hp | hp
    · exact mem_registry_keys.mpr ⟨g0, List.mem_append_left _ hp, e, he, rfl⟩
    · rcases List.mem_cons.mp hp with rfl | hp
      · exact mem_registry_keys.mpr
          ⟨insert_placeholder g0 c, List.mem_append_right _ (List.mem_cons_self _ _),
            e, mem_insert_placeholder_of_mem he, rfl⟩
      · exact mem_registry_keys.mpr
          ⟨g0, List.mem_append_right _ (List.mem_cons_of_mem _ hp), e, he, rfl⟩
  · subst heq heq'
    rcases List.mem_append.mp hg0 with hp | hp
    · exact mem_registry_keys.mpr ⟨g0, List.mem_append_left _ hp, e, he, rfl⟩
    · exact mem_registry_keys.mpr
        ⟨g0, List.mem_append_right _ (List.mem_cons_of_mem _ hp), e, he, rfl⟩

theorem step_keys_subset {blocks : List UnicodeBlock} {reg reg' : List BlockGroup}
    {c k : Nat} (hs : add_placeholder_step blocks reg c = .ok reg')
    (h : k ∈ registry_keys reg') : k ∈ registry_keys reg ∨ k = c := by
  obtain ⟨B, -, hcase⟩ := step_shape hs
  obtain ⟨g0, hg0, e, he, rfl⟩ := mem_registry_keys.mp h
  rcases hcase with ⟨pre, g, post, k', heq, -, -, -, heq'⟩ | ⟨pre, post, heq, -, -, -, heq'⟩
  · subst heq heq'
    rcases List.mem_append.mp hg0 with hp | hp
    · exact Or.inl (mem_registry_keys.mpr ⟨g0, List.mem_append_left _ hp, e, he, rfl⟩)
    · rcases List.mem_cons.mp hp with rfl | hp
      · rcases mem_of_mem_insert_placeholder he with h' | h'
        · exact Or.inl (mem_registry_keys.mpr
            ⟨g, List.mem_append_right _ (List.mem_cons_self _ _), e, h', rfl⟩)
        · subst h'; exact Or.inr rfl
      · exact Or.inl (mem_registry_keys.mpr
          ⟨g0, List.mem_append_right _ (List.mem_cons_of_mem _ hp), e, he, rfl⟩)
  · subst heq heq'
    rcases List.mem_append.mp hg0 with hp | hp
    · exact Or.inl (mem_registry_keys.mpr ⟨g0, List.mem_append_left _ hp, e, he, rfl⟩)
    · rcases List.mem_cons.mp hp with rfl | hp
      · rcases mem_of_mem_insert_placeholder he with h' | h'
        · simp at h'
        · subst h'; exact Or.inr rfl
      · exact Or.inl (mem_registry_keys.mpr
          ⟨g0, List.mem_append_right _ hp, e, he, rfl⟩)

theorem step_inserts {blocks : List UnicodeBlock} {reg reg' : List BlockGroup} {c : Nat}
    (hs : add_placeholder_step blocks reg c = .ok reg') : c ∈ registry_keys reg' := by
  obtain ⟨B, -, hcase⟩ := step_shape hs
  rcases hcase with ⟨pre, g, post, k', -, -, -, -, heq'⟩ | ⟨pre, post, -, -, -, -, heq'⟩ <;>
    subst heq'
  · obtain ⟨e, he, hk⟩ := key_mem_insert_placeholder g c
    exact mem_registry_keys.mpr
      ⟨insert_placeholder g c, List.mem_append_right _ (List.mem_cons_self _ _), e, he, hk⟩
  · obtain ⟨e, he, hk⟩ := key_mem_insert_placeholder ⟨[], none⟩ c
    exact mem_registry_keys.mpr
      ⟨insert_placeholder ⟨[], none⟩ c,
        List.mem_append_right _ (List.mem_cons_self _ _), e, he, hk⟩

theorem fold_keys {blocks : List UnicodeBlock} {l : List Nat}
    {reg reg' : List BlockGroup}
    (hf : List.foldlM (fun reg c => add_placeholder_step blocks reg c) reg l = .ok reg') :
    (∀ k ∈ registry_keys reg', k ∈ registry_keys reg ∨ k ∈ l) ∧
      (∀ k ∈ registry_keys reg, k ∈ registry_keys reg') ∧
      ∀ c ∈ l, c ∈ registry_keys reg' := by
  induction l generalizing reg with
  | nil =>
    obtain rfl : reg = reg' := Except.ok.inj hf
    exact ⟨fun k hk => Or.inl hk, fun k hk => hk, by simp⟩
  | cons c cs ih =>
    rw [List.foldlM_cons] at hf
    cases hstep : add_placeholder_step blocks reg c with
    | error e =>
      rw [hstep, except_error_bind] at hf
      exact absurd hf (by simp)
    | ok reg1 =>
      rw [hstep, except_ok_bind] at hf
      obtain ⟨h1, h2, h3⟩ := ih hf
      refine ⟨?_, ?_, ?_⟩
      · intro k hk
        rcases h1 k hk with hk' | hk'
        · rcases step_keys_subset hstep hk' with hk'' | rfl
          · exact Or.inl hk''
          · exact Or.inr (List.mem_cons_self _ _)
        · exact Or.inr (List.mem_cons_of_mem _ hk')
      · intro k hk
        exact h2 k (step_keys_superset hstep hk)
      · intro x hx
        rcases List.mem_cons.mp hx with rfl | hx
        · exact h2 x (step_inserts hstep)
        · exact h3 x hx

theorem keys_remove_subset {codepoints : List BlockGroup} {used : List Nat} :
    ∀ k ∈ registry_keys (remove_unused_codepoints codepoints used), k ∈ used := by
  intro k hk
  obtain ⟨g, hg, e, he, rfl⟩ := mem_registry_keys.mp hk
  rw [remove_unused_codepoints] at hg
  obtain ⟨g0, -, hg0⟩ := List.mem_map.mp hg
  subst hg0
  have he2 : e ∈ g0.entries.filter (fun e => used.contains e.key) := he
  have := List.of_mem_filter he2
  simpa using this

/-- C1: after `remove_unused_codepoints` followed by a successful
`add_new_codepoint_placeholders`, the set of codepoints present across all
groups equals the `used` set exactly: every used codepoint is present in some
group and no other codepoint remains. -/
theorem key_set_correspondence (blocks : List UnicodeBlock) (used : List Nat)
    (codepoints r' : List BlockGroup)
    (h : add_new_codepoint_placeholders (remove_unused_codepoints codepoints used)
      blocks used = .ok r') :
    (∀ k ∈ registry_keys r', k ∈ used) ∧ ∀ c ∈ used, c ∈ registry_keys r' := by
  rw [add_new_codepoint_placeholders] at h
  obtain ⟨h1, -, h3⟩ := fold_keys h
  refine ⟨?_, h3⟩
  intro k hk
  rcases h1 k hk with hk' | hk'
  · exact keys_remove_subset k hk'
  · exact hk'

theorem key_set_correspondence_witness :
    (∀ k ∈ registry_keys
        [(⟨[⟨66, .str "LETTER_B", none⟩, ⟨70, .str "", none⟩], none⟩ : BlockGroup)],
          k ∈ [66, 70]) ∧
      ∀ c ∈ [66, 70], c ∈ registry_keys
        [(⟨[⟨66, .str "LETTER_B", none⟩, ⟨70, .str "", none⟩], none⟩ : BlockGroup)] :=
  key_set_correspondence [⟨0, 127, "Basic Latin"⟩] [66, 70]
    [⟨[⟨65, .str "LETTER_A", none⟩, ⟨66, .str "LETTER_B", none⟩], none⟩] _ (by rfl)

/-! ### Registry invariant machinery for C2, C3, C4 -/

/-- Data-model invariant: the groups' first keys are strictly increasing
(stated on the optional first keys, so empty groups impose nothing). -/
def firstKeysSorted (reg : List BlockGroup) : Prop :=
  List.Pairwise
    (fun g g' => ∀ a b, first_key g = some a → first_key g' = some b → a < b) reg

theorem first_key_head {g : BlockGroup} {k : Nat} (h : first_key g = some k) :
    ∃ e ∈ g.entries, e.key = k := by
  rw [first_key] at h
  cases hge : g.entries with
  | nil => rw [hge] at h; simp at h
  | cons e es =>
    rw [hge] at h
    refine ⟨e, by simp, ?_⟩
    simpa using h

/-- Under `registryWF`-style per-group invariants, every key of a group with
first key `k` in the range of a member block `B` maps to `B`. -/
theorem hom_keys_eq {blocks : List UnicodeBlock} {g : BlockGroup} {k : Nat}
    {B : UnicodeBlock} (hwf : blocksWF blocks) (hB : B ∈ blocks)
    (hhom : ∀ e ∈ g.entries, ∀ e' ∈ g.entries,
      codepoint_to_block e.key blocks = codepoint_to_block e'.key blocks)
    (hk : first_key g = some k) (hc : block_contains B k) :
    ∀ e ∈ g.entries, codepoint_to_block e.key blocks = some B := by
  obtain ⟨e0, he0, hke0⟩ := first_key_head hk
  intro e he
  have h1 : codepoint_to_block e0.key blocks = some B := by
    rw [hke0]
    exact ctb_of_mem_contains hwf hB hc
  calc codepoint_to_block e.key blocks
      = codepoint_to_block e0.key blocks := hhom e he e0 he0
    _ = some B := h1

theorem insert_placeholder_sorted_aux {c : Nat} :
    ∀ (l : List Entry), List.Chain' (fun e e' : Entry => e.key < e'.key) l →
      (∀ e ∈ l, e.key ≠ c) →
      List.Chain' (fun e e' : Entry => e.key < e'.key)
        (l.insertIdx (upper_bound (l.map Entry.key) c (fun a b => decide (a > b)))
          ⟨c, .str "", none⟩) := by
  intro l
  induction l with
  | nil => intro _ _; simp [upper_bound]
  | cons e rest ih =>
    intro hch hne
    rw [List.map_cons, upper_bound]
    by_cases hgt : e.key > c
    · rw [if_pos (by simpa using hgt)]
      rw [List.insertIdx_zero]
      exact List.chain'_cons'.mpr ⟨fun b hb => by simp_all, hch⟩
    · rw [if_neg (by simpa using hgt)]
      rw [List.insertIdx_succ_cons]
      have hlt : e.key < c :=
        lt_of_le_of_ne (by omega) (hne e (by simp))
      have hch' := (List.chain'_cons'.mp hch).2
      have hihres := ih hch' (fun x hx => hne x (by simp [hx]))
      refine List.chain'_cons'.mpr ⟨?_, hihres⟩
      intro b hb
      cases rest with
      | nil =>
        simp [upper_bound, List.insertIdx_zero] at hb
        subst hb
        exact hlt
      | cons r rs =>
        rw [List.map_cons, upper_bound] at hb
        by_cases hr : r.key > c
        · rw [if_pos (by simpa using hr), List.insertIdx_zero] at hb
          simp at hb
          subst hb
          exact hlt
        · rw [if_neg (by simpa using hr), List.insertIdx_succ_cons] at hb
          simp at hb
          subst hb
          exact (List.chain'_cons'.mp hch).1 r (by simp)

theorem insert_placeholder_sorted {g : BlockGroup} {c : Nat}
    (h : List.Chain' (fun e e' : Entry => e.key < e'.key) g.entries) :
    List.Chain' (fun e e' : Entry => e.key < e'.key) (insert_placeholder g c).entries := by
  rw [insert_placeholder]
  by_cases hany : g.entries.any (fun e => e.key == c)
  · rw [if_pos hany]; exact h
  · rw [if_neg hany]
    have hne : ∀ e ∈ g.entries, e.key ≠ c := by
      intro e he heq
      exact hany (List.any_eq_true.mpr ⟨e, he, by simp [heq]⟩)
    exact insert_placeholder_sorted_aux g.entries h hne

theorem registryWF_remove {blocks : List UnicodeBlock} {reg : List BlockGroup}
    {used : List Nat} (h : registryWF blocks reg) :
    registryWF blocks (remove_unused_codepoints reg used) := by
  obtain ⟨hes, hcov, hhom, hord⟩ := h
  have hsub : ∀ g0 : BlockGroup,
      ∀ e ∈ (g0.entries.filter fun e => used.contains e.key), e ∈ g0.entries :=
    fun g0 e he => List.mem_of_mem_filter he
  refine ⟨?_, ?_, ?_, ?_⟩
  · intro g hg
    rw [remove_unused_codepoints] at hg
    obtain ⟨g0, hg0, rfl⟩ := List.mem_map.mp hg
    haveI : IsTrans Entry (fun e e' => e.key < e'.key) :=
      ⟨fun a b c h1 h2 => lt_trans h1 h2⟩
    exact (hes g0 hg0).sublist (List.filter_sublist _)
  · intro g hg
    rw [remove_unused_codepoints] at hg
    obtain ⟨g0, hg0, rfl⟩ := List.mem_map.mp hg
    exact fun e he => hcov g0 hg0 e (hsub g0 e he)
  · intro g hg
    rw [remove_unused_codepoints] at hg
    obtain ⟨g0, hg0, rfl⟩ := List.mem_map.mp hg
    exact fun e he e' he' => hhom g0 hg0 e (hsub g0 e he) e' (hsub g0 e' he')
  · rw [remove_unused_codepoints]
    refine List.Pairwise.map _ ?_ hord
    intro a b hab e he e' he'
    exact hab e (hsub a e he) e' (hsub b e' he')

theorem insert_placeholder_empty (c : Nat) :
    insert_placeholder ⟨[], none⟩ c = ⟨[⟨c, .str "", none⟩], none⟩ := rfl

theorem compare_blocks_false_le {g : BlockGroup} {B : UnicodeBlock} {k : Nat}
    (h : compare_blocks g B = false) (hk : first_key g = some k) : k ≤ B.endCp := by
  rw [compare_blocks, hk] at h
  simpa using h

theorem compare_blocks_true_gt {g : BlockGroup} {B : UnicodeBlock}
    (h : compare_blocks g B = true) : ∃ k, first_key g = some k ∧ B.endCp < k := by
  rw [compare_blocks] at h
  cases hk : first_key g with
  | none => rw [hk] at h; simp at h
  | some k => rw [hk] at h; exact ⟨k, rfl, by simpa using h⟩

/-- In a registry whose keys are covered and whose groups are homogeneous,
every group with a first key has a well-defined block containing all its
entries. -/
theorem group_block {blocks : List UnicodeBlock} {reg : List BlockGroup}
    (hcov : keysCovered blocks reg) (hhom : groupsHomogeneous blocks reg)
    {q : BlockGroup} (hq : q ∈ reg) {kq : Nat} (hkq : first_key q = some kq) :
    ∃ Bq, Bq ∈ blocks ∧ codepoint_to_block kq blocks = some Bq ∧
      block_contains Bq kq ∧
      ∀ e ∈ q.entries, codepoint_to_block e.key blocks = some Bq ∧
        block_contains Bq e.key := by
  obtain ⟨e0, he0, hke0⟩ := first_key_head hkq
  obtain ⟨Bq, hBq⟩ := Option.isSome_iff_exists.mp (hcov q hq e0 he0)
  have hctbk : codepoint_to_block kq blocks = some Bq := by rw [← hke0]; exact hBq
  refine ⟨Bq, (ctb_some_mem hctbk).1, hctbk, (ctb_some_mem hctbk).2, ?_⟩
  intro e he
  have : codepoint_to_block e.key blocks = some Bq := by
    calc codepoint_to_block e.key blocks
        = codepoint_to_block e0.key blocks := hhom q hq e he e0 he0
      _ = some Bq := hBq
  exact ⟨this, (ctb_some_mem this).2⟩

theorem hom_cov_step {blocks : List UnicodeBlock} {reg reg' : List BlockGroup} {c : Nat}
    (hwf : blocksWF blocks) (hcov : keysCovered blocks reg)
    (hhom : groupsHomogeneous blocks reg)
    (hs : add_placeholder_step blocks reg c = .ok reg') :
    keysCovered blocks reg' ∧ groupsHomogeneous blocks reg' := by
  obtain ⟨B, hb, hcase⟩ := step_shape hs
  have hBmem : B ∈ blocks := (ctb_some_mem hb).1
  rcases hcase with ⟨pre, g, post, k, heq, hk, hc, -, heq'⟩ | ⟨pre, post, heq, -, -, -, heq'⟩
  · subst heq heq'
    have hgmem : g ∈ pre ++ g :: post := by simp
    have hgB : ∀ e ∈ g.entries, codepoint_to_block e.key blocks = some B :=
      hom_keys_eq hwf hBmem (hhom g hgmem) hk hc
    have hinsB : ∀ e ∈ (insert_placeholder g c).entries,
        codepoint_to_block e.key blocks = some B := by
      intro e he
      rcases mem_of_mem_insert_placeholder he with h | h
      · exact hgB e h
      · subst h; exact hb
    constructor
    · intro g' hg' e he
      rcases List.mem_append.mp hg' with hp | hp
      · exact hcov g' (List.mem_append_left _ hp) e he
      · rcases List.mem_cons.mp hp with rfl | hp
        · rw [hinsB e he]; rfl
        · exact hcov g' (List.mem_append_right _ (List.mem_cons_of_mem _ hp)) e he
    · intro g' hg' e he e' he'
      rcases List.mem_append.mp hg' with hp | hp
      · exact hhom g' (List.mem_append_left _ hp) e he e' he'
      · rcases List.mem_cons.mp hp with rfl | hp
        · rw [hinsB e he, hinsB e' he']
        · exact hhom g' (List.mem_append_right _ (List.mem_cons_of_mem _ hp)) e he e' he'
  · subst heq heq'
    rw [insert_placeholder_empty] at *
    constructor
    · intro g' hg' e he
      rcases List.mem_append.mp hg' with hp | hp
      · exact hcov g' (List.mem_append_left _ hp) e he
      · rcases List.mem_cons.mp hp with rfl | hp
        · obtain rfl : e = ⟨c, .str "", none⟩ := by simpa using he
          rw [show (⟨c, .str "", none⟩ : Entry).key = c from rfl, hb]
          rfl
        · exact hcov g' (List.mem_append_right _ hp) e he
    · intro g' hg' e he e' he'
      rcases List.mem_append.mp hg' with hp | hp
      · exact hhom g' (List.mem_append_left _ hp) e he e' he'
      · rcases List.mem_cons.mp hp with rfl | hp
        · obtain rfl : e = ⟨c, .str "", none⟩ := by simpa using he
          obtain rfl : e' = ⟨c, .str "", none⟩ := by simpa using he'
          rfl
        · exact hhom g' (List.mem_append_right _ hp) e he e' he'

theorem hom_cov_fold {blocks : List UnicodeBlock} {l : List Nat}
    {reg reg' : List BlockGroup} (hwf : blocksWF blocks)
    (hcov : keysCovered blocks reg) (hhom : groupsHomogeneous blocks reg)
    (hf : List.foldlM (fun reg c => add_placeholder_step blocks reg c) reg l = .ok reg') :
    keysCovered blocks reg' ∧ groupsHomogeneous blocks reg' := by
  induction l generalizing reg with
  | nil =>
    obtain rfl : reg = reg' := Except.ok.inj hf
    exact ⟨hcov, hhom⟩
  | cons c cs ih =>
    rw [List.foldlM_cons] at hf
    cases hstep : add_placeholder_step blocks reg c with
    | error e =>
      rw [hstep, except_error_bind] at hf
      exact absurd hf (by simp)
    | ok reg1 =>
      rw [hstep, except_ok_bind] at hf
      obtain ⟨h1, h2⟩ := hom_cov_step hwf hcov hhom hstep
      exact ih h1 h2 hf

theorem keysCovered_remove {blocks : List UnicodeBlock} {reg : List BlockGroup}
    {used : List Nat} (h : keysCovered blocks reg) :
    keysCovered blocks (remove_unused_codepoints reg used) := by
  intro g hg e he
  rw [remove_unused_codepoints] at hg
  obtain ⟨g0, hg0, rfl⟩ := List.mem_map.mp hg
  exact h g0 hg0 e (List.mem_of_mem_filter he)

theorem groupsHomogeneous_remove {blocks : List UnicodeBlock} {reg : List BlockGroup}
    {used : List Nat} (h : groupsHomogeneous blocks reg) :
    groupsHomogeneous blocks (remove_unused_codepoints reg used) := by
  intro g hg e he e' he'
  rw [remove_unused_codepoints] at hg
  obtain ⟨g0, hg0, rfl⟩ := List.mem_map.mp hg
  exact h g0 hg0 e (List.mem_of_mem_filter he) e' (List.mem_of_mem_filter he')

/-- C4: block membership is preserved by reconciliation.  Assuming the block
table is sorted, non-overlapping and covers every used codepoint, and that
before the passes every group's keys lie in the block of that group's first
key, then after `remove_unused_codepoints` and a successful
`add_new_codepoint_placeholders` every entry's codepoint maps to the same
block as its group's first key (`codepoint_to_block` agrees on both). -/
theorem block_membership_preserved (blocks : List UnicodeBlock) (used : List Nat)
    (codepoints r' : List BlockGroup) (hwf : blocksWF blocks)
    (_hused : ∀ c ∈ used, (codepoint_to_block c blocks).isSome)
    (hcov : keysCovered blocks codepoints) (hhom : groupsHomogeneous blocks codepoints)
    (h : add_new_codepoint_placeholders (remove_unused_codepoints codepoints used)
      blocks used = .ok r') :
    ∀ g ∈ r', ∀ k, first_key g = some k → ∀ e ∈ g.entries,
      codepoint_to_block e.key blocks = codepoint_to_block k blocks ∧
        (codepoint_to_block k blocks).isSome := by
  rw [add_new_codepoint_placeholders] at h
  obtain ⟨hcov', hhom'⟩ :=
    hom_cov_fold hwf (keysCovered_remove hcov) (groupsHomogeneous_remove hhom) h
  intro g hg k hk e he
  obtain ⟨Bq, -, hctbk, -, hall⟩ := group_block hcov' hhom' hg hk
  exact ⟨by rw [(hall e he).1, hctbk], by rw [hctbk]; rfl⟩

theorem block_membership_preserved_witness :
    codepoint_to_block 70 [⟨0, 127, "Basic Latin"⟩] =
        codepoint_to_block 66 [⟨0, 127, "Basic Latin"⟩] ∧
      (codepoint_to_block 66 [⟨0, 127, "Basic Latin"⟩]).isSome :=
  block_membership_preserved [⟨0, 127, "Basic Latin"⟩] [66, 70]
    [⟨[⟨65, .str "LETTER_A", none⟩, ⟨66, .str "LETTER_B", none⟩], none⟩]
    [⟨[⟨66, .str "LETTER_B", none⟩, ⟨70, .str "", none⟩], none⟩]
    (by decide) (by decide) (by decide) (by decide) (by rfl)
    ⟨[⟨66, .str "LETTER_B", none⟩, ⟨70, .str "", none⟩], none⟩ (by decide)
    66 (by rfl) ⟨70, .str "", none⟩ (by decide)

theorem ginv_step_found {blocks : List UnicodeBlock} {pre post : List BlockGroup}
    {g : BlockGroup} {c k : Nat} {B : UnicodeBlock} (hwf : blocksWF blocks)
    (hreg : registryWF blocks (pre ++ g :: post))
    (hb : codepoint_to_block c blocks = some B)
    (hk : first_key g = some k) (hc : block_contains B k) :
    registryWF blocks (pre ++ insert_placeholder g c :: post) := by
  obtain ⟨hes, hcov, hhom, hord⟩ := hreg
  have hBmem : B ∈ blocks := (ctb_some_mem hb).1
  have hgmem : g ∈ pre ++ g :: post := by simp
  have hgB : ∀ e ∈ g.entries, codepoint_to_block e.key blocks = some B :=
    hom_keys_eq hwf hBmem (hhom g hgmem) hk hc
  have hinsB : ∀ e ∈ (insert_placeholder g c).entries,
      codepoint_to_block e.key blocks = some B := by
    intro e he
    rcases mem_of_mem_insert_placeholder he with h | h
    · exact hgB e h
    · subst h; exact hb
  obtain ⟨e0, he0, hke0⟩ := first_key_head hk
  refine ⟨?_, ?_, ?_, ?_⟩
  · intro g' hg'
    rcases List.mem_append.mp hg' with hp | hp
    · exact hes g' (List.mem_append_left _ hp)
    · rcases List.mem_cons.mp hp with rfl | hp
      · exact insert_placeholder_sorted (hes g hgmem)
      · exact hes g' (List.mem_append_right _ (List.mem_cons_of_mem _ hp))
  · intro g' hg' e he
    rcases List.mem_append.mp hg' with hp | hp
    · exact hcov g' (List.mem_append_left _ hp) e he
    · rcases List.mem_cons.mp hp with rfl | hp
      · rw [hinsB e he]; rfl
      · exact hcov g' (List.mem_append_right _ (List.mem_cons_of_mem _ hp)) e he
  · intro g' hg' e he e' he'
    rcases List.mem_append.mp hg' with hp | hp
    · exact hhom g' (List.mem_append_left _ hp) e he e' he'
    · rcases List.mem_cons.mp hp with rfl | hp
      · rw [hinsB e he, hinsB e' he']
      · exact hhom g' (List.mem_append_right _ (List.mem_cons_of_mem _ hp)) e he e' he'
  · unfold groupsOrdered at hord ⊢
    rw [List.pairwise_append] at hord ⊢
    obtain ⟨hpw_pre, hpw_cons, hcross⟩ := hord
    obtain ⟨hg_post, hpw_post⟩ := List.pairwise_cons.mp hpw_cons
    refine ⟨hpw_pre, List.pairwise_cons.mpr ⟨?_, hpw_post⟩, ?_⟩
    · intro q hq e he e' he'
      have hqmem : q ∈ pre ++ g :: post :=
        List.mem_append_right _ (List.mem_cons_of_mem _ hq)
      rcases mem_of_mem_insert_placeholder he with hin | hin
      · exact hg_post q hq e hin e' he'
      · subst hin
        have h1 := hg_post q hq e0 he0 e' he'
        have hB0 : codepoint_to_block e0.key blocks = some B := hgB e0 he0
        obtain ⟨Bq, hBqs⟩ := Option.isSome_iff_exists.mp (hcov q hqmem e' he')
        have hne : B ≠ Bq := by
          intro hEq
          exact h1.2 (by rw [hB0, hBqs, hEq])
        have horder :=
          blocks_order hwf hBmem (ctb_some_mem hBqs).1 hne hc
            (ctb_some_mem hBqs).2 (hke0 ▸ h1.1)
        constructor
        · show c < e'.key
          obtain ⟨x1, x2⟩ := (ctb_some_mem hBqs).2
          obtain ⟨y1, y2⟩ := (ctb_some_mem hb).2
          omega
        · show codepoint_to_block c blocks ≠ codepoint_to_block e'.key blocks
          rw [hb, hBqs]
          simpa using hne
    · intro p hp x hx e he e' he'
      rcases List.mem_cons.mp hx with rfl | hx
      · rcases mem_of_mem_insert_placeholder he' with hin | hin
        · exact hcross p hp g (List.mem_cons_self _ _) e he e' hin
        · subst hin
          have h1 := hcross p hp g (List.mem_cons_self _ _) e he e0 he0
          have hpmem : p ∈ pre ++ g :: post := List.mem_append_left _ hp
          obtain ⟨Bp, hBps⟩ := Option.isSome_iff_exists.mp (hcov p hpmem e he)
          have hB0 : codepoint_to_block e0.key blocks = some B := hgB e0 he0
          have hne : Bp ≠ B := by
            intro hEq
            exact h1.2 (by rw [hBps, hB0, hEq])
          have hk0 : block_contains B e0.key := by rw [hke0]; exact hc
          have horder :=
            blocks_order hwf (ctb_some_mem hBps).1 hBmem hne
              (ctb_some_mem hBps).2 hk0 h1.1
          constructor
          · show e.key < c
            obtain ⟨x1, x2⟩ := (ctb_some_mem hBps).2
            obtain ⟨y1, y2⟩ := (ctb_some_mem hb).2
            omega
          · show codepoint_to_block e.key blocks ≠ codepoint_to_block c blocks
            rw [hBps, hb]
            simpa using hne
      · exact hcross p hp x (List.mem_cons_of_mem _ hx) e he e' he'

theorem ginv_step_new {blocks : List UnicodeBlock} {pre post : List BlockGroup}
    {c : Nat} {B : UnicodeBlock} (hwf : blocksWF blocks)
    (hreg : registryWF blocks (pre ++ post))
    (hb : codepoint_to_block c blocks = some B)
    (hall : ∀ g' ∈ pre ++ post, ∃ k', first_key g' = some k' ∧ ¬ block_contains B k')
    (hpre : ∀ x ∈ pre, compare_blocks x B = false)
    (hpost : ∀ h : post ≠ [], compare_blocks (post.head h) B = true) :
    registryWF blocks (pre ++ insert_placeholder ⟨[], none⟩ c :: post) := by
  obtain ⟨hes, hcov, hhom, hord⟩ := hreg
  have hBmem : B ∈ blocks := (ctb_some_mem hb).1
  have hcB : block_contains B c := (ctb_some_mem hb).2
  rw [insert_placeholder_empty]
  have hgfact : ∀ q ∈ pre ++ post, ∃ kq Bq, first_key q = some kq ∧
      ¬ block_contains B kq ∧ Bq ∈ blocks ∧ block_contains Bq kq ∧ B ≠ Bq ∧
      ∀ e ∈ q.entries, codepoint_to_block e.key blocks = some Bq ∧
        block_contains Bq e.key := by
    intro q hq
    obtain ⟨kq, hkq, hnc⟩ := hall q hq
    obtain ⟨Bq, hBqmem, hctbkq, hcontkq, hallq⟩ := group_block hcov hhom hq hkq
    refine ⟨kq, Bq, hkq, hnc, hBqmem, hcontkq, ?_, hallq⟩
    intro hEq
    subst hEq
    exact hnc hcontkq
  refine ⟨?_, ?_, ?_, ?_⟩
  · intro g' hg'
    rcases List.mem_append.mp hg' with hp | hp
    · exact hes g' (List.mem_append_left _ hp)
    · rcases List.mem_cons.mp hp with rfl | hp
      · simp
      · exact hes g' (List.mem_append_right _ hp)
  · intro g' hg' e he
    rcases List.mem_append.mp hg' with hp | hp
    · exact hcov g' (List.mem_append_left _ hp) e he
    · rcases List.mem_cons.mp hp with rfl | hp
      · obtain rfl : e = ⟨c, .str "", none⟩ := by simpa using he
        show (codepoint_to_block c blocks).isSome
        rw [hb]; rfl
      · exact hcov g' (List.mem_append_right _ hp) e he
  · intro g' hg' e he e' he'
    rcases List.mem_append.mp hg' with hp | hp
    · exact hhom g' (List.mem_append_left _ hp) e he e' he'
    · rcases List.mem_cons.mp hp with rfl | hp
      · obtain rfl : e = ⟨c, .str "", none⟩ := by simpa using he
        obtain rfl : e' = ⟨c, .str "", none⟩ := by simpa using he'
        rfl
      · exact hhom g' (List.mem_append_right _ hp) e he e' he'
  · unfold groupsOrdered at hord ⊢
    rw [List.pairwise_append] at hord ⊢
    obtain ⟨hpw_pre, hpw_post, hcross⟩ := hord
    refine ⟨hpw_pre, List.pairwise_cons.mpr ⟨?_, hpw_post⟩, ?_⟩
    · intro q hq e he e' he'
      obtain rfl : e = ⟨c, .str "", none⟩ := by simpa using he
      cases post with
      | nil => simp at hq
      | cons q0 ptail =>
        have hq0cmp := hpost (by simp)
        rw [List.head_cons] at hq0cmp
        obtain ⟨k0, hk0, hgt0⟩ := compare_blocks_true_gt hq0cmp
        obtain ⟨kq0, B0, hkq0, -, hB0mem, hcontk0, hneB0, hallq0⟩ :=
          hgfact q0 (List.mem_append_right _ (by simp))
        have hkk : kq0 = k0 := by
          rw [hk0] at hkq0
          exact (Option.some.inj hkq0).symm
        rw [← hkk] at hgt0 hk0
        rcases List.mem_cons.mp hq with rfl | hq
        · obtain ⟨he'B0, he'cont⟩ := hallq0 e' he'
          have hck0 : c < kq0 := by
            obtain ⟨y1, y2⟩ := hcB
            omega
          have horder := blocks_order hwf hBmem hB0mem hneB0 hcB hcontk0 hck0
          constructor
          · show c < e'.key
            obtain ⟨x1, x2⟩ := he'cont
            obtain ⟨y1, y2⟩ := hcB
            omega
          · show codepoint_to_block c blocks ≠ codepoint_to_block e'.key blocks
            rw [hb, he'B0]
            simpa using hneB0
        · have hP := (List.pairwise_cons.mp hpw_post).1 q hq
          obtain ⟨e00, he00, hke00⟩ := first_key_head hk0
          have h1 := hP e00 he00 e' he'
          constructor
          · show c < e'.key
            obtain ⟨y1, y2⟩ := hcB
            omega
          · show codepoint_to_block c blocks ≠ codepoint_to_block e'.key blocks
            obtain ⟨kq', Bq, hkq', -, hBqmem, -, hneBq, hallq⟩ :=
              hgfact q (List.mem_append_right _ (List.mem_cons_of_mem _ hq))
            obtain ⟨he'Bq, -⟩ := hallq e' he'
            rw [hb, he'Bq]
            simpa using hneBq
    · intro p hp x hx e he e' he'
      rcases List.mem_cons.mp hx with rfl | hx
      · obtain rfl : e' = ⟨c, .str "", none⟩ := by simpa using he'
        obtain ⟨kp, Bp, hkp, hncp, hBpmem, hcontkp, hnep, hallp⟩ :=
          hgfact p (List.mem_append_left _ hp)
        obtain ⟨heBp, hecont⟩ := hallp e he
        have hkple := compare_blocks_false_le (hpre p hp) hkp
        have hkplt : kp < B.start := by
          rcases Nat.lt_or_ge kp B.start with h | h
          · exact h
          · exact absurd ⟨h, hkple⟩ hncp
        have hkpc : kp < c := by
          obtain ⟨y1, y2⟩ := hcB
          omega
        have horder := blocks_order hwf hBpmem hBmem (fun h => hnep h.symm)
          hcontkp hcB hkpc
        constructor
        · show e.key < c
          obtain ⟨x1, x2⟩ := hecont
          obtain ⟨y1, y2⟩ := hcB
          omega
        · show codepoint_to_block e.key blocks ≠ codepoint_to_block c blocks
          rw [heBp, hb]
          simp
          exact fun h => hnep h.symm
      · exact hcross p hp x hx e he e' he'

theorem ginv_step {blocks : List UnicodeBlock} {reg reg' : List BlockGroup} {c : Nat}
    (hwf : blocksWF blocks) (hreg : registryWF blocks reg)
    (hs : add_placeholder_step blocks reg c = .ok reg') : registryWF blocks reg' := by
  obtain ⟨B, hb, hcase⟩ := step_shape hs
  rcases hcase with ⟨pre, g, post, k, heq, hk, hc, -, heq'⟩ |
    ⟨pre, post, heq, hall, hpre, hpost, heq'⟩
  · subst heq heq'
    exact ginv_step_found hwf hreg hb hk hc
  · subst heq heq'
    exact ginv_step_new hwf hreg hb hall hpre hpost

theorem ginv_fold {blocks : List UnicodeBlock} {l : List Nat} {reg reg' : List BlockGroup}
    (hwf : blocksWF blocks) (hreg : registryWF blocks reg)
    (hf : List.foldlM (fun reg c => add_placeholder_step blocks reg c) reg l = .ok reg') :
    registryWF blocks reg' := by
  induction l generalizing reg with
  | nil =>
    obtain rfl : reg = reg' := Except.ok.inj hf
    exact hreg
  | cons c cs ih =>
    rw [List.foldlM_cons] at hf
    cases hstep : add_placeholder_step blocks reg c with
    | error e =>
      rw [hstep, except_error_bind] at hf
      exact absurd hf (by simp)
    | ok reg1 =>
      rw [hstep, except_ok_bind] at hf
      exact ih (ginv_step hwf hreg hstep) hf

/-- C3 as stated is false: sortedness of entries and of first keys before the
two passes does not by itself guarantee sortedness afterwards (block
membership of the groups is also needed).  Concretely, with blocks
`[0..10]`, used `[3, 5]` and registry `[{1: a, 5: b}, {3: c}]` (sorted
entries, first keys 1 < 3), removal deletes key 1, making the first keys
5 and 3, and insertion then puts 3 into the first group, leaving two groups
with equal first key 3. -/
theorem sortedness_claim_counterexample :
    ¬ ∀ (blocks : List UnicodeBlock) (used : List Nat) (codepoints r' : List BlockGroup),
        entriesSorted codepoints → firstKeysSorted codepoints →
        add_new_codepoint_placeholders (remove_unused_codepoints codepoints used)
          blocks used = .ok r' →
        entriesSorted r' ∧ firstKeysSorted r' := by
  intro h
  have hfk : firstKeysSorted
      [⟨[⟨1, .str "a", none⟩, ⟨5, .str "b", none⟩], none⟩,
        (⟨[⟨3, .str "c", none⟩], none⟩ : BlockGroup)] := by
    unfold firstKeysSorted
    refine List.pairwise_cons.mpr ⟨?_, List.pairwise_singleton _ _⟩
    intro g' hg' a b ha hb
    obtain rfl : g' = ⟨[⟨3, .str "c", none⟩], none⟩ := by simpa using hg'
    have ha' : a = 1 := by simpa [first_key] using ha.symm
    have hb' : b = 3 := by simpa [first_key] using hb.symm
    omega
  have h2 := h [⟨0, 10, "B"⟩] [3, 5]
    [⟨[⟨1, .str "a", none⟩, ⟨5, .str "b", none⟩], none⟩, ⟨[⟨3, .str "c", none⟩], none⟩]
    [⟨[⟨3, .str "", none⟩, ⟨5, .str "b", none⟩], none⟩, ⟨[⟨3, .str "c", none⟩], none⟩]
    (by decide) hfk (by rfl)
  have h3 := (List.pairwise_cons.mp h2.2).1
    ⟨[⟨3, .str "c", none⟩], none⟩ (by simp) 3 3 rfl rfl
  omega

/-- C3 amended: sortedness is preserved by reconciliation once the full
data-model invariant is assumed: with a sorted, non-overlapping block table
and a registry that is well-formed (sorted entries, covered keys, one block
per group, ordered groups), after `remove_unused_codepoints` and a successful
`add_new_codepoint_placeholders` every group's entries are strictly
increasing, the first keys of the groups are strictly increasing, and no key
is duplicated inside a group (the upper-bound search chooses every insertion
position and a present codepoint short-circuits insertion). -/
theorem sortedness_preserved (blocks : List UnicodeBlock) (used : List Nat)
    (codepoints r' : List BlockGroup) (hwf : blocksWF blocks)
    (hreg : registryWF blocks codepoints)
    (h : add_new_codepoint_placeholders (remove_unused_codepoints codepoints used)
      blocks used = .ok r') :
    entriesSorted r' ∧ firstKeysSorted r' ∧
      ∀ g ∈ r', (g.entries.map Entry.key).Nodup := by
  rw [add_new_codepoint_placeholders] at h
  obtain ⟨hes, hcov, hhom, hord⟩ := ginv_fold hwf (registryWF_remove hreg) h
  refine ⟨hes, ?_, ?_⟩
  · unfold firstKeysSorted
    refine hord.imp ?_
    intro g g' hP a b ha hb
    obtain ⟨ea, hea, hkea⟩ := first_key_head ha
    obtain ⟨eb, heb, hkeb⟩ := first_key_head hb
    have := (hP ea hea eb heb).1
    omega
  · intro g hg
    have hch : List.Chain' (· < ·) (g.entries.map Entry.key) := by
      rw [List.chain'_map]
      exact hes g hg
    haveI : IsTrans Nat (· < ·) := ⟨fun a b c h1 h2 => lt_trans h1 h2⟩
    have hpw : List.Pairwise (· < ·) (g.entries.map Entry.key) :=
      List.chain'_iff_pairwise.mp hch
    exact hpw.imp fun h => Nat.ne_of_lt h

theorem sortedness_preserved_witness :
    entriesSorted [(⟨[⟨66, .str "LETTER_B", none⟩, ⟨70, .str "", none⟩], none⟩ : BlockGroup)] ∧
      firstKeysSorted
        [(⟨[⟨66, .str "LETTER_B", none⟩, ⟨70, .str "", none⟩], none⟩ : BlockGroup)] ∧
      ∀ g ∈ [(⟨[⟨66, .str "LETTER_B", none⟩, ⟨70, .str "", none⟩], none⟩ : BlockGroup)],
        (g.entries.map Entry.key).Nodup :=
  sortedness_preserved [⟨0, 127, "Basic Latin"⟩] [66, 70]
    [⟨[⟨65, .str "LETTER_A", none⟩, ⟨66, .str "LETTER_B", none⟩], none⟩] _
    (by decide) (by decide) (by rfl)

/-! ### C2: names are never overwritten -/

theorem bindings_for_append (l1 l2 : List BlockGroup) (c : Nat) :
    bindings_for (l1 ++ l2) c = bindings_for l1 c ++ bindings_for l2 c := by
  simp [bindings_for]

theorem bindings_for_cons (g : BlockGroup) (l : List BlockGroup) (c : Nat) :
    bindings_for (g :: l) c =
      (g.entries.filter fun e => e.key = c).map Entry.value ++ bindings_for l c := by
  simp [bindings_for]

theorem filter_insertIdx_false {α : Type} (p : α → Bool) (x : α) (hpx : p x = false) :
    ∀ (pos : Nat) (l : List α), (l.insertIdx pos x).filter p = l.filter p := by
  intro pos
  induction pos with
  | zero =>
    intro l
    rw [List.insertIdx_zero, List.filter_cons, hpx]
    simp
  | succ n ih =>
    intro l
    cases l with
    | nil => rfl
    | cons y ys =>
      rw [List.insertIdx_succ_cons, List.filter_cons, List.filter_cons, ih]

theorem filter_insertIdx_single {α : Type} (p : α → Bool) (x : α) (hpx : p x = true) :
    ∀ (pos : Nat) (l : List α), pos ≤ l.length → (∀ y ∈ l, p y = false) →
      (l.insertIdx pos x).filter p = [x] := by
  intro pos
  induction pos with
  | zero =>
    intro l _ hl
    rw [List.insertIdx_zero, List.filter_cons, hpx]
    have hnil : l.filter p = [] :=
      List.filter_eq_nil_iff.mpr (by intro a ha; simp [hl a ha])
    simp [hnil]
  | succ n ih =>
    intro l hlen hl
    cases l with
    | nil => simp at hlen
    | cons y ys =>
      rw [List.insertIdx_succ_cons, List.filter_cons, hl y (by simp),
        ih ys (by simpa using hlen) fun z hz => hl z (by simp [hz])]
      simp

theorem bindings_empty_of_absent {l : List BlockGroup} {c : Nat}
    (h : c ∉ registry_keys l) : bindings_for l c = [] := by
  rw [bindings_for]
  rw [List.flatten_eq_nil_iff]
  intro vs hvs
  obtain ⟨g, hg, rfl⟩ := List.mem_map.mp hvs
  rw [List.map_eq_nil_iff, List.filter_eq_nil_iff]
  intro e he
  simp only [decide_eq_true_eq]
  intro hk
  exact h (mem_registry_keys.mpr ⟨g, hg, e, he, hk⟩)

theorem insert_placeholder_present {g : BlockGroup} {c : Nat}
    (h : ∃ e ∈ g.entries, e.key = c) : insert_placeholder g c = g := by
  rw [insert_placeholder, if_pos]
  obtain ⟨e, he, hk⟩ := h
  exact List.any_eq_true.mpr ⟨e, he, by simp [hk]⟩

theorem gb_insert_ne {g : BlockGroup} {c c' : Nat} (hne : c' ≠ c) :
    ((insert_placeholder g c).entries.filter fun e => e.key = c').map Entry.value =
      (g.entries.filter fun e => e.key = c').map Entry.value := by
  rw [insert_placeholder]
  by_cases hany : g.entries.any (fun e => e.key == c)
  · rw [if_pos hany]
  · rw [if_neg hany]
    have : ((g.entries.insertIdx
        (upper_bound (g.entries.map Entry.key) c fun a b => decide (a > b))
        ⟨c, .str "", none⟩).filter fun e => e.key = c') =
        g.entries.filter fun e => e.key = c' :=
      filter_insertIdx_false _ _ (by simp [Ne.symm hne]) _ _
    rw [this]

theorem gb_insert_self {g : BlockGroup} {c : Nat}
    (habs : ∀ e ∈ g.entries, e.key ≠ c) :
    ((insert_placeholder g c).entries.filter fun e => e.key = c).map Entry.value =
      [.str ""] := by
  rw [insert_placeholder]
  have hany : ¬ g.entries.any (fun e => e.key == c) := by
    intro h
    obtain ⟨e, he, hk⟩ := List.any_eq_true.mp h
    exact habs e he (by simpa using hk)
  rw [if_neg hany]
  have hle : upper_bound (g.entries.map Entry.key) c (fun a b => decide (a > b))
      ≤ g.entries.length := by
    have := upper_bound_le_length (g.entries.map Entry.key) c (fun a b => decide (a > b))
    simpa using this
  have : ((g.entries.insertIdx
      (upper_bound (g.entries.map Entry.key) c fun a b => decide (a > b))
      ⟨c, .str "", none⟩).filter fun e => e.key = c) = [⟨c, .str "", none⟩] :=
    filter_insertIdx_single _ _ (by simp) _ _ hle fun y hy => by simp [habs y hy]
  rw [this]
  rfl

/-- Under the registry invariant, when the scan finds a group for the block of
`c` and `c` is present anywhere in the registry, it is present in that found
group. -/
theorem found_group_key {blocks : List UnicodeBlock} {pre post : List BlockGroup}
    {g : BlockGroup} {c k : Nat} {B : UnicodeBlock} (hwf : blocksWF blocks)
    (hreg : registryWF blocks (pre ++ g :: post))
    (hb : codepoint_to_block c blocks = some B)
    (hk : first_key g = some k) (hc : block_contains B k)
    (hmem : c ∈ registry_keys (pre ++ g :: post)) :
    ∃ e ∈ g.entries, e.key = c := by
  obtain ⟨hes, hcov, hhom, hord⟩ := hreg
  have hBmem : B ∈ blocks := (ctb_some_mem hb).1
  have hgmem : g ∈ pre ++ g :: post := by simp
  have hgB : ∀ e ∈ g.entries, codepoint_to_block e.key blocks = some B :=
    hom_keys_eq hwf hBmem (hhom g hgmem) hk hc
  obtain ⟨e0, he0, hke0⟩ := first_key_head hk
  obtain ⟨q, hq, e, he, hkey⟩ := mem_registry_keys.mp hmem
  unfold groupsOrdered at hord
  rw [List.pairwise_append] at hord
  obtain ⟨-, hpw_cons, hcross⟩ := hord
  rcases List.mem_append.mp hq with hp | hp
  · exfalso
    have h1 := hcross q hp g (List.mem_cons_self _ _) e he e0 he0
    apply h1.2
    rw [hkey, hb, hgB e0 he0]
  · rcases List.mem_cons.mp hp with rfl | hp
    · exact ⟨e, he, hkey⟩
    · exfalso
      have h1 := (List.pairwise_cons.mp hpw_cons).1 q hp e0 he0 e he
      apply h1.2
      rw [hkey, hb, hgB e0 he0]

/-- Under the registry invariant, when the scan finds no group for the block
of `c`, the codepoint `c` is absent from the whole registry. -/
theorem scan_none_key_absent {blocks : List UnicodeBlock} {reg : List BlockGroup}
    {c : Nat} {B : UnicodeBlock} (hreg : registryWF blocks reg)
    (hb : codepoint_to_block c blocks = some B)
    (hall : ∀ g' ∈ reg, ∃ k', first_key g' = some k' ∧ ¬ block_contains B k') :
    c ∉ registry_keys reg := by
  obtain ⟨-, hcov, hhom, -⟩ := hreg
  intro hmem
  obtain ⟨q, hq, e, he, hkey⟩ := mem_registry_keys.mp hmem
  obtain ⟨kq, hkq, hnc⟩ := hall q hq
  obtain ⟨e0, he0, hke0⟩ := first_key_head hkq
  have h1 : codepoint_to_block kq blocks = some B := by
    rw [← hke0, ← hhom q hq e he e0 he0, hkey, hb]
  exact hnc (ctb_some_mem h1).2

theorem bindings_ne_of_mem {reg : List BlockGroup} {c : Nat}
    (h : c ∈ registry_keys reg) : bindings_for reg c ≠ [] := by
  obtain ⟨q, hq, e, he, hkey⟩ := mem_registry_keys.mp h
  intro hnil
  rw [bindings_for, List.flatten_eq_nil_iff] at hnil
  have hq' := hnil ((q.entries.filter fun e => e.key = c).map Entry.value)
    (List.mem_map.mpr ⟨q, hq, rfl⟩)
  rw [List.map_eq_nil_iff] at hq'
  have he' : e ∈ q.entries.filter fun e => e.key = c :=
    List.mem_filter.mpr ⟨he, by simp [hkey]⟩
  rw [hq'] at he'
  simp at he'

theorem step_bindings {blocks : List UnicodeBlock} {reg reg' : List BlockGroup} {c : Nat}
    (hwf : blocksWF blocks) (hreg : registryWF blocks reg)
    (hs : add_placeholder_step blocks reg c = .ok reg') :
    (∀ c', c' ≠ c → bindings_for reg' c' = bindings_for reg c') ∧
      (c ∈ registry_keys reg → bindings_for reg' c = bindings_for reg c) ∧
      (c ∉ registry_keys reg → bindings_for reg' c = [.str ""]) := by
  obtain ⟨B, hb, hcase⟩ := step_shape hs
  rcases hcase with ⟨pre, g, post, k, heq, hk, hc, -, heq'⟩ |
    ⟨pre, post, heq, hall, -, -, heq'⟩
  · subst heq heq'
    by_cases hmem : c ∈ registry_keys (pre ++ g :: post)
    · have hgotc := found_group_key hwf hreg hb hk hc hmem
      rw [insert_placeholder_present hgotc]
      exact ⟨fun c' _ => rfl, fun _ => rfl, fun hn => absurd hmem hn⟩
    · have habs : ∀ e ∈ g.entries, e.key ≠ c := by
        intro e he hkey
        exact hmem (mem_registry_keys.mpr ⟨g, by simp, e, he, hkey⟩)
      have hpre_nil : bindings_for pre c = [] := by
        refine bindings_empty_of_absent fun hp => hmem ?_
        obtain ⟨q, hq, e, he, hkey⟩ := mem_registry_keys.mp hp
        exact mem_registry_keys.mpr ⟨q, List.mem_append_left _ hq, e, he, hkey⟩
      have hpost_nil : bindings_for post c = [] := by
        refine bindings_empty_of_absent fun hp => hmem ?_
        obtain ⟨q, hq, e, he, hkey⟩ := mem_registry_keys.mp hp
        exact mem_registry_keys.mpr
          ⟨q, List.mem_append_right _ (List.mem_cons_of_mem _ hq), e, he, hkey⟩
      refine ⟨?_, fun hmem' => absurd hmem' hmem, fun _ => ?_⟩
      · intro c' hne
        rw [bindings_for_append, bindings_for_append, bindings_for_cons,
          bindings_for_cons, gb_insert_ne hne]
      · rw [bindings_for_append, bindings_for_cons, hpre_nil, hpost_nil,
          gb_insert_self habs]
        simp
  · subst heq heq'
    have hnotmem : c ∉ registry_keys (pre ++ post) := scan_none_key_absent hreg hb hall
    have habs : ∀ e ∈ (⟨[], none⟩ : BlockGroup).entries, e.key ≠ c := by
      intro e he
      simp at he
    have hpre_nil : bindings_for pre c = [] := by
      refine bindings_empty_of_absent fun hp => hnotmem ?_
      obtain ⟨q, hq, e, he, hkey⟩ := mem_registry_keys.mp hp
      exact mem_registry_keys.mpr ⟨q, List.mem_append_left _ hq, e, he, hkey⟩
    have hpost_nil : bindings_for post c = [] := by
      refine bindings_empty_of_absent fun hp => hnotmem ?_
      obtain ⟨q, hq, e, he, hkey⟩ := mem_registry_keys.mp hp
      exact mem_registry_keys.mpr ⟨q, List.mem_append_right _ hq, e, he, hkey⟩
    refine ⟨?_, fun hmem' => absurd hmem' hnotmem, fun _ => ?_⟩
    · intro c' hne
      rw [bindings_for_append, bindings_for_append, bindings_for_cons,
        gb_insert_ne hne]
      simp
    · rw [bindings_for_append, bindings_for_cons, hpre_nil, hpost_nil,
        gb_insert_self habs]
      simp

theorem fold_bindings {blocks : List UnicodeBlock} {l : List Nat}
    {reg reg' : List BlockGroup} (hwf : blocksWF blocks)
    (hreg : registryWF blocks reg)
    (hf : List.foldlM (fun reg c => add_placeholder_step blocks reg c) reg l = .ok reg') :
    ∀ c, bindings_for reg' c =
      if c ∈ l ∧ bindings_for reg c = [] then [.str ""] else bindings_for reg c := by
  induction l generalizing reg with
  | nil =>
    obtain rfl : reg = reg' := Except.ok.inj hf
    intro c
    simp
  | cons c0 cs ih =>
    rw [List.foldlM_cons] at hf
    cases hstep : add_placeholder_step blocks reg c0 with
    | error e =>
      rw [hstep, except_error_bind] at hf
      exact absurd hf (by simp)
    | ok reg1 =>
      rw [hstep, except_ok_bind] at hf
      have hreg1 := ginv_step hwf hreg hstep
      have hi := ih hreg1 hf
      obtain ⟨hb1, hb2, hb3⟩ := step_bindings hwf hreg hstep
      intro c
      by_cases hcc : c = c0
      · subst hcc
        by_cases hpres : c ∈ registry_keys reg
        · have h1 : bindings_for reg1 c = bindings_for reg c := hb2 hpres
          have h2 : bindings_for reg c ≠ [] := bindings_ne_of_mem hpres
          rw [hi c, h1]
          simp [h2]
        · have h1 : bindings_for reg1 c = [.str ""] := hb3 hpres
          have h2 : bindings_for reg c = [] := bindings_empty_of_absent hpres
          rw [hi c, h1]
          simp [h2]
      · have h1 : bindings_for reg1 c = bindings_for reg c := hb1 c hcc
        rw [hi c, h1]
        simp [hcc]

theorem gb_filter_used {used : List Nat} {c : Nat} (hc : c ∈ used) :
    ∀ l : List Entry,
      ((l.filter fun e => used.contains e.key).filter fun e => e.key = c) =
        l.filter fun e => e.key = c := by
  intro l
  rw [List.filter_filter]
  refine List.filter_congr ?_
  intro a _
  by_cases hk : a.key = c
  · simp [hk, hc]
  · simp [hk]

theorem bindings_remove_used {reg : List BlockGroup} {used : List Nat} {c : Nat}
    (h : c ∈ used) :
    bindings_for (remove_unused_codepoints reg used) c = bindings_for reg c := by
  rw [remove_unused_codepoints, bindings_for, bindings_for, List.map_map]
  congr 1
  refine List.map_congr_left ?_
  intro g _
  show ((g.entries.filter fun e => used.contains e.key).filter
      fun e => e.key = c).map Entry.value = _
  rw [gb_filter_used h]

theorem bindings_remove_unused {reg : List BlockGroup} {used : List Nat} {c : Nat}
    (h : c ∉ used) :
    bindings_for (remove_unused_codepoints reg used) c = [] := by
  refine bindings_empty_of_absent fun hmem => h (keys_remove_subset c hmem)

/-- C2: names are never overwritten.  Under the data-model invariant, for
every codepoint present before reconciliation and still used, its NameValue
(the first binding a reader of the document sees) is unchanged after
`remove_unused_codepoints` and a successful `add_new_codepoint_placeholders`;
moreover the multiset of bindings of every codepoint is characterized: a used,
present codepoint keeps exactly its old bindings, a used, absent codepoint
gets exactly one empty-string placeholder, and an unused codepoint ends with
no binding. -/
theorem names_never_overwritten (blocks : List UnicodeBlock) (used : List Nat)
    (codepoints r' : List BlockGroup) (hwf : blocksWF blocks)
    (hreg : registryWF blocks codepoints)
    (h : add_new_codepoint_placeholders (remove_unused_codepoints codepoints used)
      blocks used = .ok r') :
    (∀ c ∈ used, ∀ v, registry_lookup codepoints c = some v →
        registry_lookup r' c = some v) ∧
      ∀ c, bindings_for r' c =
        if c ∈ used then
          if bindings_for codepoints c = [] then [.str ""]
          else bindings_for codepoints c
        else [] := by
  rw [add_new_codepoint_placeholders] at h
  have hfold := fold_bindings hwf (registryWF_remove hreg) h
  have hchar : ∀ c, bindings_for r' c =
      if c ∈ used then
        if bindings_for codepoints c = [] then [.str ""]
        else bindings_for codepoints c
      else [] := by
    intro c
    rw [hfold c]
    by_cases hcu : c ∈ used
    · rw [bindings_remove_used hcu]
      by_cases hnil : bindings_for codepoints c = [] <;> simp [hcu, hnil]
    · rw [bindings_remove_unused hcu]
      simp [hcu]
  refine ⟨?_, hchar⟩
  intro c hcu v hv
  rw [registry_lookup] at hv ⊢
  rw [hchar c]
  have hne : bindings_for codepoints c ≠ [] := by
    intro h0
    rw [h0] at hv
    simp at hv
  simp [hcu, hne]
  exact hv

theorem names_never_overwritten_witness :
    registry_lookup [(⟨[⟨66, .str "LETTER_B", none⟩, ⟨70, .str "", none⟩],
        none⟩ : BlockGroup)] 66 = some (.str "LETTER_B") :=
  (names_never_overwritten [⟨0, 127, "Basic Latin"⟩] [66, 70]
      [⟨[⟨65, .str "LETTER_A", none⟩, ⟨66, .str "LETTER_B", none⟩], none⟩] _
      (by decide) (by decide) (by rfl)).1 66 (by decide) (.str "LETTER_B") (by rfl)

/-! ### C7: the annotation pass -/

/-- Modelled from the spec: the descriptive comment attached to an entry —
the literal character when the codepoint renders as a visible glyph,
`"(non-printable)"` otherwise; followed, only when the entry's name is still
an empty placeholder and the codepoint has a standard Unicode name, by that
name upper-cased with non-word runs collapsed to a single underscore. -/
def spec_comment (is_visible : Nat → Bool) (uni_name : Nat → Option String)
    (v : NameValue) (c : Nat) : String :=
  (if is_visible c then String.singleton (Char.ofNat c) else "(non-printable)") ++
    (if v.falsy then
      match uni_name c with
      | some nm => " " ++ String.mk (collapse_nonword (nm.data.map Char.toUpper))
      | none => ""
    else "")

theorem intercalate_single (s a : String) : String.intercalate s [a] = a := rfl

theorem intercalate_pair (s a b : String) : String.intercalate s [a, b] = a ++ s ++ b := rfl

theorem comment_form (iv : Nat → Bool) (un : Nat → Option String) (v : NameValue)
    (c : Nat) :
    String.intercalate " " (get_char_comments iv un v c) = spec_comment iv un v c := by
  rw [get_char_comments, spec_comment]
  cases hv : v.falsy with
  | false =>
    simp only [Bool.false_eq_true, if_false]
    rw [intercalate_single]
    exact (String.append_empty _).symm
  | true =>
    simp only [if_true]
    cases hun : un c with
    | none =>
      rw [intercalate_single]
      exact (String.append_empty _).symm
    | some nm =>
      rw [intercalate_pair, String.append_assoc]

theorem spec_comment_ne_empty (iv : Nat → Bool) (un : Nat → Option String)
    (v : NameValue) (c : Nat) : spec_comment iv un v c ≠ "" := by
  intro h
  have hl := congrArg String.length h
  rw [spec_comment, String.length_append] at hl
  by_cases hiv : iv c
  · rw [if_pos hiv] at hl
    have : (String.singleton (Char.ofNat c)).length = 1 := rfl
    rw [this] at hl
    simp at hl
  · rw [if_neg hiv] at hl
    have : ("(non-printable)" : String).length = 15 := rfl
    rw [this] at hl
    simp at hl

theorem annotate_group_eq_ok (iv : Nat → Bool) (un : Nat → Option String)
    {blocks : List UnicodeBlock} {g : BlockGroup} {k : Nat} {b : UnicodeBlock}
    (hk : first_key g = some k) (hb : codepoint_to_block k blocks = some b) :
    annotate_group iv un blocks g = .ok
      ⟨g.entries.map fun e => ⟨e.key, e.value,
          some ("# " ++ spec_comment iv un e.value e.key)⟩,
        some ("\n" ++ b.name)⟩ := by
  rw [annotate_group]
  simp only [hk, hb]
  congr 1
  congr 1
  refine List.map_congr_left ?_
  intro e _
  show (if String.intercalate " " (get_char_comments iv un e.value e.key) = ""
      then e
      else ⟨e.key, e.value,
        some ("# " ++ String.intercalate " " (get_char_comments iv un e.value e.key))⟩) = _
  rw [comment_form, if_neg (spec_comment_ne_empty iv un e.value e.key)]

theorem annotate_group_ok {iv : Nat → Bool} {un : Nat → Option String}
    {blocks : List UnicodeBlock} {g g'' : BlockGroup}
    (h : annotate_group iv un blocks g = .ok g'') :
    ∃ k b, first_key g = some k ∧ codepoint_to_block k blocks = some b ∧
      g'' = ⟨g.entries.map fun e => ⟨e.key, e.value,
          some ("# " ++ spec_comment iv un e.value e.key)⟩,
        some ("\n" ++ b.name)⟩ := by
  cases hk : first_key g with
  | none => rw [annotate_group] at h; simp [hk] at h
  | some k =>
    cases hb : codepoint_to_block k blocks with
    | none => rw [annotate_group] at h; simp [hk, hb] at h
    | some b =>
      have heq := annotate_group_eq_ok iv un hk hb
      rw [heq] at h
      exact ⟨k, b, rfl, hb, (Except.ok.inj h).symm⟩

theorem mapM_ok_mem {α β : Type} {f : α → Except PyErr β} :
    ∀ {l : List α} {r : List β}, l.mapM f = .ok r → ∀ y ∈ r, ∃ x ∈ l, f x = .ok y := by
  intro l
  induction l with
  | nil =>
    intro r h y hy
    obtain rfl : ([] : List β) = r := Except.ok.inj h
    simp at hy
  | cons x xs ih =>
    intro r h y hy
    rw [List.mapM_cons] at h
    cases hfx : f x with
    | error e => rw [hfx, except_error_bind] at h; exact absurd h (by simp)
    | ok y0 =>
      rw [hfx, except_ok_bind] at h
      cases hrest : xs.mapM f with
      | error e => rw [hrest, except_error_bind] at h; exact absurd h (by simp)
      | ok ys =>
        rw [hrest, except_ok_bind] at h
        obtain rfl : y0 :: ys = r := Except.ok.inj h
        rcases List.mem_cons.mp hy with rfl | hy
        · exact ⟨x, by simp, hfx⟩
        · obtain ⟨x', hx', hfx'⟩ := ih hrest y hy
          exact ⟨x', by simp [hx'], hfx'⟩

theorem comments_ok_any_name {iv : Nat → Bool} {un un' : Nat → Option String}
    {blocks : List UnicodeBlock} :
    ∀ {codepoints r' : List BlockGroup},
      add_codepoint_comments iv un blocks codepoints = .ok r' →
      ∃ r'', add_codepoint_comments iv un' blocks codepoints = .ok r'' := by
  intro codepoints
  induction codepoints with
  | nil =>
    intro r' _
    exact ⟨[], rfl⟩
  | cons g gs ih =>
    intro r' h
    rw [add_codepoint_comments, List.mapM_cons] at h
    cases hfx : annotate_group iv un blocks g with
    | error e => rw [hfx, except_error_bind] at h; exact absurd h (by simp)
    | ok g1 =>
      rw [hfx, except_ok_bind] at h
      cases hrest : gs.mapM (annotate_group iv un blocks) with
      | error e => rw [hrest, except_error_bind] at h; exact absurd h (by simp)
      | ok ys =>
        obtain ⟨k, b, hk, hb, -⟩ := annotate_group_ok hfx
        have hgs : add_codepoint_comments iv un blocks gs = .ok ys := by
          rw [add_codepoint_comments]
          exact hrest
        obtain ⟨r2, hr2⟩ := ih hgs
        refine ⟨(⟨g.entries.map fun e => ⟨e.key, e.value,
            some ("# " ++ spec_comment iv un' e.value e.key)⟩,
          some ("\n" ++ b.name)⟩ : BlockGroup) :: r2, ?_⟩
        rw [add_codepoint_comments, List.mapM_cons, annotate_group_eq_ok iv un' hk hb,
          except_ok_bind]
        rw [add_codepoint_comments] at hr2
        rw [hr2, except_ok_bind]
        rfl

/-- C7: a successful annotation pass attaches to every entry a comment whose
first fragment is the literal character when the codepoint is a visible glyph
and the literal text `(non-printable)` otherwise; exactly when the entry's
name is an empty placeholder, a second fragment with the standard Unicode
name (upper-cased, non-word runs collapsed to one underscore) follows, and a
codepoint with no standard name gets no second fragment — and no error is
raised on account of the name function: the pass succeeds for every name
function whenever it succeeds for one. -/
theorem annotation_comments (iv : Nat → Bool) (un : Nat → Option String)
    (blocks : List UnicodeBlock) (codepoints r' : List BlockGroup)
    (h : add_codepoint_comments iv un blocks codepoints = .ok r') :
    (∀ g' ∈ r', ∀ e ∈ g'.entries,
        e.comment = some ("# " ++
          (if iv e.key then String.singleton (Char.ofNat e.key) else "(non-printable)") ++
          (if e.value.falsy then
            match un e.key with
            | some nm => " " ++ String.mk (collapse_nonword (nm.data.map Char.toUpper))
            | none => ""
          else ""))) ∧
      ∀ un' : Nat → Option String,
        ∃ r'', add_codepoint_comments iv un' blocks codepoints = .ok r'' := by
  constructor
  · intro g' hg' e he
    rw [add_codepoint_comments] at h
    obtain ⟨g, hgmem, hok⟩ := mapM_ok_mem h g' hg'
    obtain ⟨k, b, hk, hb, rfl⟩ := annotate_group_ok hok
    obtain ⟨e0, -, rfl⟩ := List.mem_map.mp he
    show some ("# " ++ spec_comment iv un e0.value e0.key) = _
    rw [spec_comment, ← String.append_assoc]
  · intro un'
    exact comments_ok_any_name h

theorem annotation_comments_witness :
    (⟨65, NameValue.str "", some "# A LATIN_CAPITAL_LETTER_A"⟩ : Entry).comment =
      some ("# " ++
        (if (fun _ => true) (65 : Nat) then String.singleton (Char.ofNat 65)
          else "(non-printable)") ++
        (if (NameValue.str "").falsy then
          match (fun c => if c = 65 then some "LATIN CAPITAL LETTER A" else none) 65 with
          | some nm => " " ++ String.mk (collapse_nonword (nm.data.map Char.toUpper))
          | none => ""
        else "")) :=
  (annotation_comments (fun _ => true)
      (fun c => if c = 65 then some "LATIN CAPITAL LETTER A" else none)
      [⟨0, 127, "Basic Latin"⟩]
      [⟨[⟨65, .str "", none⟩, ⟨66, .str "x", none⟩], none⟩] _ (by rfl)).1
    ⟨[⟨65, .str "", some "# A LATIN_CAPITAL_LETTER_A"⟩, ⟨66, .str "x", some "# B"⟩],
      some "\nBasic Latin"⟩ (by decide)
    ⟨65, .str "", some "# A LATIN_CAPITAL_LETTER_A"⟩ (by decide)

/-! ### C6: idempotence of reconcile-plus-annotate -/

/-- The registry state that makes one placeholder iteration for `c` a no-op:
the block of `c` is defined, the scan finds a group, and that group already
holds `c`. -/
def good (blocks : List UnicodeBlock) (reg : List BlockGroup) (c : Nat) : Prop :=
  ∃ B i, codepoint_to_block c blocks = some B ∧
    find_block_scan B reg = .ok (some i) ∧
    ∃ e ∈ (reg.getD i ⟨[], none⟩).entries, e.key = c

theorem set_getD_self {α : Type} (d : α) :
    ∀ (l : List α) (i : Nat), l.set i (l.getD i d) = l := by
  intro l
  induction l with
  | nil => intro i; rfl
  | cons x xs ih =>
    intro i
    cases i with
    | zero => rfl
    | succ n =>
      rw [List.set_cons_succ]
      have : (x :: xs).getD (n + 1) d = xs.getD n d := by simp [List.getD]
      rw [this, ih]

theorem good_step_self {blocks : List UnicodeBlock} {reg : List BlockGroup} {c : Nat}
    (h : good blocks reg c) : add_placeholder_step blocks reg c = .ok reg := by
  obtain ⟨B, i, hb, hscan, hc⟩ := h
  rw [add_placeholder_step]
  simp only [hb, find_block, hscan]
  rw [insert_placeholder_present hc, set_getD_self]

theorem scan_build {B : UnicodeBlock} :
    ∀ (pre : List BlockGroup) (g : BlockGroup) (post : List BlockGroup) (k : Nat),
      (∀ g' ∈ pre, ∃ k', first_key g' = some k' ∧ ¬ block_contains B k') →
      first_key g = some k → block_contains B k →
      find_block_scan B (pre ++ g :: post) = .ok (some pre.length) := by
  intro pre
  induction pre with
  | nil =>
    intro g post k _ hk hc
    rw [List.nil_append, find_block_scan, hk]
    simp only [if_pos (show B.start ≤ k ∧ k ≤ B.endCp from hc)]
    rfl
  | cons p ps ih =>
    intro g post k hpre hk hc
    obtain ⟨kp, hkp, hnc⟩ := hpre p (by simp)
    rw [List.cons_append, find_block_scan]
    simp only [hkp]
    rw [if_neg (show ¬ (B.start ≤ kp ∧ kp ≤ B.endCp) from hnc)]
    rw [ih g post k (fun x hx => hpre x (by simp [hx])) hk hc]
    rfl

theorem first_key_insert {g : BlockGroup} {c k : Nat} (hk : first_key g = some k) :
    first_key (insert_placeholder g c) = some k ∨
      first_key (insert_placeholder g c) = some c := by
  rw [insert_placeholder]
  by_cases hany : g.entries.any (fun e => e.key == c)
  · rw [if_pos hany]; exact Or.inl hk
  · rw [if_neg hany]
    cases hge : g.entries with
    | nil => rw [first_key, hge] at hk; simp at hk
    | cons e es =>
      have hke : e.key = k := by
        rw [first_key, hge] at hk
        simpa using hk
      show first_key ⟨(e :: es).insertIdx
          (upper_bound ((e :: es).map Entry.key) c fun a b => decide (a > b))
          ⟨c, .str "", none⟩, g.beforeComment⟩ = some k ∨
        first_key ⟨(e :: es).insertIdx
          (upper_bound ((e :: es).map Entry.key) c fun a b => decide (a > b))
          ⟨c, .str "", none⟩, g.beforeComment⟩ = some c
      cases hub : upper_bound ((e :: es).map Entry.key) c fun a b => decide (a > b) with
      | zero =>
        rw [List.insertIdx_zero]
        exact Or.inr rfl
      | succ n =>
        rw [List.insertIdx_succ_cons]
        left
        show some e.key = some k
        rw [hke]

theorem first_key_insert_empty (c : Nat) :
    first_key (insert_placeholder ⟨[], none⟩ c) = some c := rfl

theorem contains_same_block {blocks : List UnicodeBlock} {B B' : UnicodeBlock} {x : Nat}
    (hwf : blocksWF blocks) (hB : B ∈ blocks) (hB' : B' ∈ blocks)
    (hx : block_contains B x) (hx' : block_contains B' x) : B = B' := by
  by_contra hne
  obtain ⟨-, hpair⟩ := hwf
  have hsym : List.Pairwise (fun u v => u.endCp < v.start ∨ v.endCp < u.start) blocks :=
    hpair.imp Or.inl
  have := hsym.forall (fun u v h => h.symm) hB hB' hne
  obtain ⟨h1, h2⟩ := hx
  obtain ⟨h3, h4⟩ := hx'
  rcases this with h | h <;> omega

theorem split_split {α : Type} {P Q A Bl : List α} {x : α}
    (h : P ++ x :: Q = A ++ Bl) :
    (∃ T, P = A ++ T ∧ Bl = T ++ x :: Q) ∨ (∃ T, A = P ++ x :: T ∧ Q = T ++ Bl) := by
  rcases List.append_eq_append_iff.mp h with ⟨a', ha1, ha2⟩ | ⟨c', hc1, hc2⟩
  · cases a' with
    | nil =>
      left
      refine ⟨[], by simpa using ha1.symm, ?_⟩
      simpa using ha2.symm
    | cons y T =>
      right
      obtain ⟨rfl, hq⟩ : x = y ∧ Q = T ++ Bl := by
        have := ha2
        rw [List.cons_append] at this
        exact ⟨List.head_eq_of_cons_eq this, List.tail_eq_of_cons_eq this⟩
      exact ⟨T, by rw [ha1], hq⟩
  · left
    exact ⟨c', hc1, hc2⟩

theorem step_good {blocks : List UnicodeBlock} {reg reg' : List BlockGroup} {c : Nat}
    (hs : add_placeholder_step blocks reg c = .ok reg') : good blocks reg' c := by
  obtain ⟨B, hb, hcase⟩ := step_shape hs
  have hcB : block_contains B c := (ctb_some_mem hb).2
  rcases hcase with ⟨pre, g, post, k, heq, hk, hc, hpre, heq'⟩ |
    ⟨pre, post, heq, hall, hprec, hpostc, heq'⟩
  · subst heq heq'
    refine ⟨B, pre.length, hb, ?_, ?_⟩
    · rcases @first_key_insert _ c _ hk with hki | hki
      · exact scan_build pre _ post k hpre hki hc
      · exact scan_build pre _ post c hpre hki hcB
    · rw [getD_split]
      exact key_mem_insert_placeholder g c
  · subst heq heq'
    refine ⟨B, pre.length, hb, ?_, ?_⟩
    · refine scan_build pre _ post c ?_ (first_key_insert_empty c) hcB
      intro x hx
      exact hall x (List.mem_append_left _ hx)
    · rw [getD_split]
      exact key_mem_insert_placeholder _ c

theorem good_stable {blocks : List UnicodeBlock} {reg reg' : List BlockGroup}
    {c c'' : Nat} (hwf : blocksWF blocks) (hg : good blocks reg c)
    (hs : add_placeholder_step blocks reg c'' = .ok reg') : good blocks reg' c := by
  obtain ⟨B, i, hb, hscan, hcmem⟩ := hg
  have hBmem : B ∈ blocks := (ctb_some_mem hb).1
  obtain ⟨P, G, Q, kG, hsplit, hlen, hkG, hcG, hPnb⟩ := scan_ok_some hscan
  rw [hsplit, ← hlen, getD_split] at hcmem
  obtain ⟨B'', hb'', hcase⟩ := step_shape hs
  have hB''mem : B'' ∈ blocks := (ctb_some_mem hb'').1
  have hcB'' : block_contains B'' c'' := (ctb_some_mem hb'').2
  rcases hcase with ⟨pre, g'', post'', k'', heq, hk'', hc'', hpre'', heq'⟩ |
    ⟨pre, post'', heq, hall'', hprec, hpostc, heq'⟩
  · subst heq'
    rw [hsplit] at heq
    rcases split_split heq with ⟨T, hPT, hBl⟩ | ⟨T, hAT, hQT⟩
    · cases T with
      | nil =>
        obtain rfl : pre = P := by simpa using hPT.symm
        obtain ⟨rfl, rfl⟩ : g'' = G ∧ post'' = Q := by
          have h2 := hBl
          simp only [List.nil_append] at h2
          exact ⟨List.head_eq_of_cons_eq h2, List.tail_eq_of_cons_eq h2⟩
        obtain rfl : k'' = kG := by
          rw [hkG] at hk''
          exact (Option.some.inj hk'').symm
        have hBB : B = B'' := contains_same_block hwf hBmem hB''mem hcG hc''
        refine ⟨B, pre.length, hb, ?_, ?_⟩
        · rcases @first_key_insert _ c'' _ hkG with hki | hki
          · exact scan_build pre _ post'' k'' hPnb hki hcG
          · refine scan_build pre _ post'' c'' hPnb hki ?_
            rw [hBB]
            exact hcB''
        · rw [getD_split]
          obtain ⟨e, he, hek⟩ := hcmem
          exact ⟨e, mem_insert_placeholder_of_mem he, hek⟩
      | cons t T' =>
        obtain ⟨hg''t, hpost''⟩ : g'' = t ∧ post'' = T' ++ G :: Q := by
          rw [List.cons_append] at hBl
          exact ⟨List.head_eq_of_cons_eq hBl, List.tail_eq_of_cons_eq hBl⟩
        subst hg''t hpost''
        have hPT' : P = pre ++ g'' :: T' := hPT
        have hg''P : g'' ∈ P := by rw [hPT']; simp
        obtain ⟨k2, hk2, hk2nb⟩ := hPnb g'' hg''P
        obtain rfl : k2 = k'' := by
          rw [hk''] at hk2
          exact (Option.some.inj hk2).symm
        have hBne : B ≠ B'' := fun hEq => hk2nb (hEq ▸ hc'')
        have hcnotB : ¬ block_contains B c'' := fun hcc =>
          hBne (contains_same_block hwf hBmem hB''mem hcc hcB'')
        have hre : pre ++ insert_placeholder g'' c'' :: (T' ++ G :: Q)
            = (pre ++ insert_placeholder g'' c'' :: T') ++ G :: Q := by simp
        have hlen2 : (pre ++ insert_placeholder g'' c'' :: T').length = P.length := by
          rw [hPT']
          simp
        refine ⟨B, P.length, hb, ?_, ?_⟩
        · rw [hre, ← hlen2]
          refine scan_build _ G Q kG ?_ hkG hcG
          intro x hx
          rcases List.mem_append.mp hx with hxp | hxc
          · exact hPnb x (by rw [hPT']; exact List.mem_append_left _ hxp)
          · rcases List.mem_cons.mp hxc with rfl | hxT
            · rcases @first_key_insert _ c'' _ hk'' with hki | hki
              · exact ⟨k2, hki, hk2nb⟩
              · exact ⟨c'', hki, hcnotB⟩
            · exact hPnb x
                (by rw [hPT']; exact List.mem_append_right _ (List.mem_cons_of_mem _ hxT))
        · rw [hre, ← hlen2, getD_split]
          exact hcmem
    · have hpre2 : pre = P ++ G :: T := hAT
      subst hpre2
      have hre : (P ++ G :: T) ++ insert_placeholder g'' c'' :: post''
          = P ++ G :: (T ++ insert_placeholder g'' c'' :: post'') := by simp
      refine ⟨B, P.length, hb, ?_, ?_⟩
      · rw [hre]
        exact scan_build P G _ kG hPnb hkG hcG
      · rw [hre, getD_split]
        exact hcmem
  · subst heq'
    subst heq
    have hGmem : G ∈ pre ++ post'' := by rw [hsplit]; simp
    obtain ⟨kg', hkg', hnotB''⟩ := hall'' G hGmem
    obtain rfl : kg' = kG := by
      rw [hkG] at hkg'
      exact (Option.some.inj hkg').symm
    have hBne : B ≠ B'' := fun hEq => hnotB'' (hEq ▸ hcG)
    have hcnotB : ¬ block_contains B c'' := fun hcc =>
      hBne (contains_same_block hwf hBmem hB''mem hcc hcB'')
    rcases split_split hsplit.symm with ⟨T, hPT, hpostT⟩ | ⟨T, hpreT, hQT⟩
    · subst hpostT
      have hre : pre ++ insert_placeholder ⟨[], none⟩ c'' :: (T ++ G :: Q)
          = (pre ++ insert_placeholder ⟨[], none⟩ c'' :: T) ++ G :: Q := by simp
      refine ⟨B, (pre ++ insert_placeholder ⟨[], none⟩ c'' :: T).length, hb, ?_, ?_⟩
      · rw [hre]
        refine scan_build _ G Q kg' ?_ hkG hcG
        intro x hx
        rcases List.mem_append.mp hx with hxp | hxc
        · exact hPnb x (by rw [hPT]; exact List.mem_append_left _ hxp)
        · rcases List.mem_cons.mp hxc with rfl | hxT
          · exact ⟨c'', first_key_insert_empty c'', hcnotB⟩
          · exact hPnb x (by rw [hPT]; exact List.mem_append_right _ hxT)
      · rw [hre, getD_split]
        exact hcmem
    · subst hpreT
      have hre : (P ++ G :: T) ++ insert_placeholder ⟨[], none⟩ c'' :: post''
          = P ++ G :: (T ++ insert_placeholder ⟨[], none⟩ c'' :: post'') := by simp
      refine ⟨B, P.length, hb, ?_, ?_⟩
      · rw [hre]
        exact scan_build P G _ kg' hPnb hkG hcG
      · rw [hre, getD_split]
        exact hcmem

theorem fold_good {blocks : List UnicodeBlock} {l : List Nat}
    {reg reg' : List BlockGroup} (hwf : blocksWF blocks)
    (hf : List.foldlM (fun reg c => add_placeholder_step blocks reg c) reg l = .ok reg') :
    (∀ c, good blocks reg c → good blocks reg' c) ∧ ∀ c ∈ l, good blocks reg' c := by
  induction l generalizing reg with
  | nil =>
    obtain rfl : reg = reg' := Except.ok.inj hf
    exact ⟨fun c h => h, by simp⟩
  | cons c0 cs ih =>
    rw [List.foldlM_cons] at hf
    cases hstep : add_placeholder_step blocks reg c0 with
    | error e =>
      rw [hstep, except_error_bind] at hf
      exact absurd hf (by simp)
    | ok reg1 =>
      rw [hstep, except_ok_bind] at hf
      obtain ⟨hstab, hmem⟩ := ih hf
      refine ⟨fun c h => hstab c (good_stable hwf h hstep), ?_⟩
      intro c hc
      rcases List.mem_cons.mp hc with rfl | hc
      · exact hstab c (step_good hstep)
      · exact hmem c hc

theorem remove_id {reg : List BlockGroup} {used : List Nat}
    (h : ∀ k ∈ registry_keys reg, k ∈ used) :
    remove_unused_codepoints reg used = reg := by
  rw [remove_unused_codepoints]
  conv_rhs => rw [← List.map_id reg]
  refine List.map_congr_left ?_
  intro g hg
  have hfil : g.entries.filter (fun e => used.contains e.key) = g.entries := by
    refine List.filter_eq_self.mpr ?_
    intro e he
    have : e.key ∈ used := h e.key (mem_registry_keys.mpr ⟨g, hg, e, he, rfl⟩)
    simpa using this
  rw [hfil]
  rfl

theorem fold_self {blocks : List UnicodeBlock} {l : List Nat} {reg : List BlockGroup}
    (h : ∀ c ∈ l, good blocks reg c) :
    List.foldlM (fun reg c => add_placeholder_step blocks reg c) reg l = .ok reg := by
  induction l with
  | nil => rfl
  | cons c0 cs ih =>
    rw [List.foldlM_cons, good_step_self (h c0 (by simp)), except_ok_bind]
    exact ih fun c hc => h c (by simp [hc])

/-- The per-group relation established by a successful annotation pass:
keys (hence first keys) and group count are preserved. -/
theorem comments_forall2 {iv : Nat → Bool} {un : Nat → Option String}
    {blocks : List UnicodeBlock} :
    ∀ {reg a : List BlockGroup}, add_codepoint_comments iv un blocks reg = .ok a →
      List.Forall₂ (fun g g' => first_key g' = first_key g ∧
        g'.entries.map Entry.key = g.entries.map Entry.key) reg a := by
  intro reg
  induction reg with
  | nil =>
    intro a h
    obtain rfl : ([] : List BlockGroup) = a := Except.ok.inj h
    exact List.Forall₂.nil
  | cons g gs ih =>
    intro a h
    rw [add_codepoint_comments, List.mapM_cons] at h
    cases hfx : annotate_group iv un blocks g with
    | error e => rw [hfx, except_error_bind] at h; exact absurd h (by simp)
    | ok g1 =>
      rw [hfx, except_ok_bind] at h
      cases hrest : gs.mapM (annotate_group iv un blocks) with
      | error e => rw [hrest, except_error_bind] at h; exact absurd h (by simp)
      | ok ys =>
        rw [hrest, except_ok_bind] at h
        obtain rfl : g1 :: ys = a := Except.ok.inj h
        obtain ⟨k, b, hk, hb, rfl⟩ := annotate_group_ok hfx
        refine List.Forall₂.cons ⟨?_, ?_⟩ (ih (by rw [add_codepoint_comments]; exact hrest))
        · rw [first_key, first_key]
          show (List.map _ g.entries).head?.map Entry.key = _
          rw [List.head?_map]
          cases g.entries.head? <;> rfl
        · show (g.entries.map _).map Entry.key = _
          rw [List.map_map]
          rfl

theorem forall2_get? {α β : Type} {R : α → β → Prop} :
    ∀ {l : List α} {l' : List β}, List.Forall₂ R l l' → ∀ {i : Nat} {x : α},
      l.get? i = some x → ∃ y, l'.get? i = some y ∧ R x y := by
  intro l l' h
  induction h with
  | nil => intro i x hx; simp at hx
  | cons hr _ ih =>
    intro i x hx
    cases i with
    | zero =>
      obtain rfl : _ = x := by simpa using hx
      exact ⟨_, rfl, hr⟩
    | succ n => exact ih (by simpa using hx)

theorem scan_congr {B : UnicodeBlock} :
    ∀ {reg a : List BlockGroup},
      List.Forall₂ (fun g g' => first_key g' = first_key g ∧
        g'.entries.map Entry.key = g.entries.map Entry.key) reg a →
      find_block_scan B a = find_block_scan B reg := by
  intro reg a h
  induction h with
  | nil => rfl
  | cons hr hrest ih =>
    rw [find_block_scan, find_block_scan, hr.1, ih]

theorem forall2_length {α β : Type} {R : α → β → Prop} :
    ∀ {l : List α} {l' : List β}, List.Forall₂ R l l' → l.length = l'.length := by
  intro l l' h
  induction h with
  | nil => rfl
  | cons _ _ ih => simpa using ih

theorem good_of_comments {iv : Nat → Bool} {un : Nat → Option String}
    {blocks : List UnicodeBlock} {reg a : List BlockGroup} {c : Nat}
    (hcom : add_codepoint_comments iv un blocks reg = .ok a)
    (hg : good blocks reg c) : good blocks a c := by
  obtain ⟨B, i, hb, hscan, e, he, hek⟩ := hg
  have h2 := comments_forall2 hcom
  refine ⟨B, i, hb, by rw [scan_congr h2]; exact hscan, ?_⟩
  obtain ⟨P, G, Q, kG, hsplit, hlen, -, -, -⟩ := scan_ok_some hscan
  have hget : reg.get? i = some G := by
    rw [hsplit, ← hlen]
    rw [List.get?_append_right (by omega)]
    simp
  obtain ⟨G', hget', ⟨-, hkeys⟩⟩ := forall2_get? h2 hget
  have hgd : a.getD i ⟨[], none⟩ = G' := by
    rw [List.getD_eq_getElem?_getD, ← List.get?_eq_getElem?, hget']
    rfl
  rw [hgd]
  have hmemk : c ∈ G'.entries.map Entry.key := by
    rw [hkeys]
    have hG : reg.getD i ⟨[], none⟩ = G := by
      rw [List.getD_eq_getElem?_getD, ← List.get?_eq_getElem?, hget]
      rfl
    rw [hG] at he
    exact List.mem_map.mpr ⟨e, he, hek⟩
  obtain ⟨e', he', hek'⟩ := List.mem_map.mp hmemk
  exact ⟨e', he', hek'⟩

theorem annotate_idem {iv : Nat → Bool} {un : Nat → Option String}
    {blocks : List UnicodeBlock} :
    ∀ {reg a : List BlockGroup}, add_codepoint_comments iv un blocks reg = .ok a →
      add_codepoint_comments iv un blocks a = .ok a := by
  intro reg
  induction reg with
  | nil =>
    intro a h
    obtain rfl : ([] : List BlockGroup) = a := Except.ok.inj h
    rfl
  | cons g gs ih =>
    intro a h
    rw [add_codepoint_comments, List.mapM_cons] at h
    cases hfx : annotate_group iv un blocks g with
    | error e => rw [hfx, except_error_bind] at h; exact absurd h (by simp)
    | ok g1 =>
      rw [hfx, except_ok_bind] at h
      cases hrest : gs.mapM (annotate_group iv un blocks) with
      | error e => rw [hrest, except_error_bind] at h; exact absurd h (by simp)
      | ok ys =>
        rw [hrest, except_ok_bind] at h
        obtain rfl : g1 :: ys = a := Except.ok.inj h
        obtain ⟨k, b, hk, hb, rfl⟩ := annotate_group_ok hfx
        have hgs : add_codepoint_comments iv un blocks gs = .ok ys := by
          rw [add_codepoint_comments]
          exact hrest
        have hys := ih hgs
        rw [add_codepoint_comments, List.mapM_cons]
        have hk1 : first_key ⟨g.entries.map fun e => ⟨e.key, e.value,
            some ("# " ++ spec_comment iv un e.value e.key)⟩, some ("\n" ++ b.name)⟩
            = some k := by
          rw [first_key] at hk ⊢
          show (List.map _ g.entries).head?.map Entry.key = some k
          rw [List.head?_map]
          cases hge : g.entries.head? with
          | none => rw [hge] at hk; simp at hk
          | some e0 => rw [hge] at hk; simpa using hk
        rw [annotate_group_eq_ok iv un hk1 hb, except_ok_bind]
        rw [add_codepoint_comments] at hys
        rw [hys, except_ok_bind]
        have hmm : (g.entries.map fun e => (⟨e.key, e.value,
              some ("# " ++ spec_comment iv un e.value e.key)⟩ : Entry)).map
              (fun e => (⟨e.key, e.value,
                some ("# " ++ spec_comment iv un e.value e.key)⟩ : Entry)) =
            g.entries.map fun e => (⟨e.key, e.value,
              some ("# " ++ spec_comment iv un e.value e.key)⟩ : Entry) := by
          rw [List.map_map]
          refine List.map_congr_left ?_
          intro e _
          rfl
        rw [hmm]
        rfl

theorem forall2_keys {reg a : List BlockGroup}
    (h : List.Forall₂ (fun g g' => first_key g' = first_key g ∧
      g'.entries.map Entry.key = g.entries.map Entry.key) reg a) :
    registry_keys a = registry_keys reg := by
  induction h with
  | nil => rfl
  | cons hr hrest ih =>
    simp only [registry_keys, List.map_cons, List.flatten_cons] at ih ⊢
    rw [hr.2, ih]

/-- C6: the reconcile-plus-annotate pipeline is idempotent.  With a sorted,
non-overlapping block table, running the pipeline a second time on its own
output (same `used` set) returns that output unchanged: removal deletes
nothing, every placeholder scan finds its codepoint already present, and the
annotation pass recomputes and overwrites each comment with the same value —
so any serializer produces byte-identical text on the second run. -/
theorem pipeline_idempotent (iv : Nat → Bool) (un : Nat → Option String)
    (blocks : List UnicodeBlock) (used : List Nat) (codepoints a : List BlockGroup)
    (hwf : blocksWF blocks)
    (h : reconcile_annotate iv un blocks used codepoints = .ok a) :
    reconcile_annotate iv un blocks used a = .ok a := by
  rw [reconcile_annotate] at h ⊢
  cases hadd : add_new_codepoint_placeholders
      (remove_unused_codepoints codepoints used) blocks used with
  | error e =>
    rw [hadd, except_error_bind] at h
    exact absurd h (by simp)
  | ok r2 =>
    rw [hadd, except_ok_bind] at h
    rw [add_new_codepoint_placeholders] at hadd
    have hf2 := comments_forall2 h
    have hkeysr2 : ∀ k ∈ registry_keys r2, k ∈ used := by
      obtain ⟨h1, -, -⟩ := fold_keys hadd
      intro k hk
      rcases h1 k hk with hk' | hk'
      · exact keys_remove_subset k hk'
      · exact hk'
    have hkeysa : ∀ k ∈ registry_keys a, k ∈ used := by
      intro k hk
      rw [forall2_keys hf2] at hk
      exact hkeysr2 k hk
    have hgood_a : ∀ c ∈ used, good blocks a c := by
      intro c hc
      exact good_of_comments h ((fold_good hwf hadd).2 c hc)
    rw [remove_id hkeysa]
    have haddself : add_new_codepoint_placeholders a blocks used = .ok a := by
      rw [add_new_codepoint_placeholders]
      exact fold_self hgood_a
    rw [haddself, except_ok_bind]
    exact annotate_idem h

theorem pipeline_idempotent_witness :
    reconcile_annotate (fun c => c != 0)
        (fun c => if c = 65 then some "LATIN CAPITAL LETTER A" else none)
        [⟨0, 127, "Basic Latin"⟩] [65, 66]
        [⟨[⟨65, .str "", some "# A LATIN_CAPITAL_LETTER_A"⟩,
            ⟨66, .str "", some "# B"⟩], some "\nBasic Latin"⟩] =
      .ok [⟨[⟨65, .str "", some "# A LATIN_CAPITAL_LETTER_A"⟩,
            ⟨66, .str "", some "# B"⟩], some "\nBasic Latin"⟩] :=
  pipeline_idempotent _ _ _ _ [] _ (by decide) (by rfl)

/-! ### Machinery for the `transform` text-pass claims -/

theorem hex_digit_char : ∀ m, m < 16 →
    (hex_digit m).isDigit = true ∨ (65 ≤ (hex_digit m).toNat ∧ (hex_digit m).toNat ≤ 70) := by
  decide

theorem hex_digits_go_char : ∀ fuel n, ∀ d ∈ hex_digits_go fuel n,
    d.isDigit = true ∨ (65 ≤ d.toNat ∧ d.toNat ≤ 70) := by
  intro fuel
  induction fuel with
  | zero => intro n d hd; simp [hex_digits_go] at hd
  | succ fuel ih =>
    intro n d hd
    rw [hex_digits_go] at hd
    by_cases h : n < 16
    · rw [if_pos h] at hd
      simp at hd
      subst hd
      exact hex_digit_char n h
    · rw [if_neg h] at hd
      rcases List.mem_append.mp hd with h1 | h1
      · exact ih _ d h1
      · simp at h1
        subst h1
        exact hex_digit_char _ (Nat.mod_lt _ (by decide))

theorem hex_digits_char (n : Nat) : ∀ d ∈ hex_digits n,
    d.isDigit = true ∨ (65 ≤ d.toNat ∧ d.toNat ≤ 70) :=
  hex_digits_go_char (n + 1) n

theorem hex_char_ne {d : Char}
    (h : d.isDigit = true ∨ (65 ≤ d.toNat ∧ d.toNat ≤ 70)) : d ≠ ' ' ∧ d ≠ '#' := by
  constructor <;> rintro rfl <;> revert h <;> decide

theorem esc_head (n : Nat) :
    escape_replacement n =
      '"' :: (('\\' :: 'u' ::
        (List.replicate (4 - (hex_digits n).length) '0' ++ hex_digits n)) ++ ['"']) := rfl

theorem esc_tail_chars (n : Nat) :
    ∀ c ∈ ('\\' :: 'u' ::
        (List.replicate (4 - (hex_digits n).length) '0' ++ hex_digits n)) ++ ['"'],
      c ≠ ' ' := by
  intro c hc
  simp only [List.mem_append, List.mem_cons, List.mem_singleton,
    List.mem_replicate, List.not_mem_nil, or_false] at hc
  rcases hc with (rfl | rfl | (⟨-, rfl⟩ | hc)) | rfl
  · decide
  · decide
  · decide
  · exact (hex_char_ne (hex_digits_char n c hc)).1
  · decide

theorem collapse_flush (p : Nat) (ch : Char) (t : List Char)
    (h1 : ch ≠ ' ') (h2 : ch ≠ '#') :
    collapse_pad_aux p (ch :: t) =
      List.replicate p ' ' ++ ch :: collapse_pad_aux 0 t := by
  rw [collapse_pad_aux]
  rw [if_neg h1, if_neg h2]

theorem collapse_cons_space (p : Nat) (t : List Char) :
    collapse_pad_aux p (' ' :: t) = collapse_pad_aux (p + 1) t := by
  rw [collapse_pad_aux]
  rw [if_pos rfl]

theorem collapse_cons_hash_zero (t : List Char) :
    collapse_pad_aux 0 ('#' :: t) = '#' :: collapse_pad_aux 0 t := by
  rw [collapse_pad_aux]
  rw [if_neg (by decide), if_pos rfl, if_pos rfl]

theorem collapse_append_safe (u : List Char) (hu : ∀ c ∈ u, c ≠ ' ') (t : List Char) :
    collapse_pad_aux 0 (u ++ t) = u ++ collapse_pad_aux 0 t := by
  induction u with
  | nil => rfl
  | cons ch u ih =>
    have hch : ch ≠ ' ' := hu ch (by simp)
    have ih2 := ih (fun c hc => hu c (by simp [hc]))
    by_cases h2 : ch = '#'
    · subst h2
      rw [List.cons_append, collapse_cons_hash_zero, ih2, List.cons_append]
    · rw [List.cons_append, collapse_flush 0 ch _ hch h2, ih2]
      simp

theorem collapse_pad_line {p1 : Char} (hp1 : p1 = '-' ∨ p1 = ' ') (n : Nat)
    (rest : List Char) :
    collapse_pad (p1 :: ' ' :: (escape_replacement n ++ rest)) =
      p1 :: ' ' :: (escape_replacement n ++ collapse_pad rest) := by
  simp only [collapse_pad]
  rw [esc_head n]
  rcases hp1 with rfl | rfl
  · rw [collapse_flush 0 '-' _ (by decide) (by decide)]
    rw [collapse_cons_space]
    rw [List.cons_append, collapse_flush 1 '"' _ (by decide) (by decide)]
    rw [collapse_append_safe _ (esc_tail_chars n) rest]
    simp
  · rw [collapse_cons_space, collapse_cons_space]
    rw [List.cons_append, collapse_flush 2 '"' _ (by decide) (by decide)]
    rw [collapse_append_safe _ (esc_tail_chars n) rest]
    simp

/-- C8: key escaping in the `transform` pass.  Every codepoint-key line — a
line starting with the block-sequence prefix `"- "` or the two-space
indentation, whose remainder is matched by `KEY_RE` into a (possibly quoted)
key followed by a colon — is rewritten so the key becomes
`escape_key`'s replacement: a double-quoted `\uXXXX` escape of the scalar
value that `yaml.load` assigns to the key text (the parameter `yload`),
consisting of at least four hex digits drawn from `0`–`9` and upper-case
`A`–`F`, regardless of how the serializer rendered the key. -/
theorem key_escaping (yload : List Char → Nat) (p1 p2 : Char) (m key rest : List Char)
    (hpre : (p1 = '-' ∧ p2 = ' ') ∨ (p1 = ' ' ∧ p2 = ' '))
    (hkm : key_match m = some (key, rest)) :
    transform_line yload (p1 :: p2 :: m) =
      p1 :: p2 :: (escape_replacement (yload key) ++ collapse_pad rest) ∧
    ∃ ds : List Char,
      escape_replacement (yload key) = '"' :: '\\' :: 'u' :: ds ++ ['"'] ∧
      4 ≤ ds.length ∧
      ∀ d ∈ ds, d.isDigit = true ∨ (65 ≤ d.toNat ∧ d.toNat ≤ 70) := by
  have hp2 : p2 = ' ' := by rcases hpre with ⟨-, h⟩ | ⟨-, h⟩ <;> exact h
  have hp1 : p1 = '-' ∨ p1 = ' ' := by
    rcases hpre with ⟨h, -⟩ | ⟨h, -⟩
    · exact Or.inl h
    · exact Or.inr h
  constructor
  · have ht : transform_line yload (p1 :: p2 :: m) =
        collapse_pad (if (p1 = '-' ∧ p2 = ' ') ∨ (p1 = ' ' ∧ p2 = ' ') then
            (match key_match m with
              | some (k2, r2) => p1 :: p2 :: (escape_replacement (yload k2) ++ r2)
              | none => p1 :: p2 :: m)
          else p1 :: p2 :: m) := rfl
    rw [ht, if_pos hpre]
    simp only [hkm]
    subst hp2
    exact collapse_pad_line hp1 (yload key) rest
  · refine ⟨List.replicate (4 - (hex_digits (yload key)).length) '0' ++
      hex_digits (yload key), rfl, ?_, ?_⟩
    · rw [List.length_append, List.length_replicate]
      omega
    · intro d hd
      rcases List.mem_append.mp hd with h | h
      · obtain rfl := List.eq_of_mem_replicate h
        left
        decide
      · exact hex_digits_char _ d h

theorem key_escaping_witness :
    key_match ('a' :: ':' :: []) = some (('a' :: []), (':' :: [])) ∧
    (transform_line (fun _ => 10) ('-' :: ' ' :: 'a' :: ':' :: []) =
      '-' :: ' ' :: (escape_replacement 10 ++ collapse_pad (':' :: [])) ∧
     ∃ ds : List Char,
       escape_replacement 10 = '"' :: '\\' :: 'u' :: ds ++ ['"'] ∧
       4 ≤ ds.length ∧
       ∀ d ∈ ds, d.isDigit = true ∨ (65 ≤ d.toNat ∧ d.toNat ≤ 70)) :=
  ⟨by decide, key_escaping (fun _ => 10) '-' ' ' ('a' :: ':' :: []) ('a' :: [])
    (':' :: []) (Or.inl ⟨rfl, rfl⟩) (by decide)⟩

theorem starts_pad_spec {l : List Char} (h : starts_pad l = true) :
    ∃ t, l = ' ' :: ' ' :: '#' :: t := by
  rcases l with _ | ⟨c1, _ | ⟨c2, _ | ⟨c3, t⟩⟩⟩
  · simp [starts_pad] at h
  · simp [starts_pad] at h
  · simp [starts_pad] at h
  · simp [starts_pad] at h
    obtain ⟨⟨rfl, rfl⟩, rfl⟩ := h
    exact ⟨t, rfl⟩

theorem has_pad_cons_safe {ch : Char} {o : List Char} (h1 : ch ≠ ' ')
    (h2 : has_pad o = false) : has_pad (ch :: o) = false := by
  rw [has_pad, h2]
  cases hst : starts_pad (ch :: o) with
  | false => rfl
  | true =>
    obtain ⟨t, ht⟩ := starts_pad_spec hst
    injection ht with h3 _
    exact absurd h3 h1

theorem has_pad_spaces (n : Nat) {ch : Char} {o : List Char}
    (h1 : ch ≠ ' ') (h2 : ch ≠ '#') (ho : has_pad o = false) :
    has_pad (List.replicate n ' ' ++ ch :: o) = false := by
  induction n with
  | zero => exact has_pad_cons_safe h1 ho
  | succ n ih =>
    rw [List.replicate_succ, List.cons_append, has_pad, ih]
    cases hst : starts_pad (' ' :: (List.replicate n ' ' ++ ch :: o)) with
    | false => rfl
    | true =>
      obtain ⟨t, ht⟩ := starts_pad_spec hst
      injection ht with _ ht2
      rcases n with _ | _ | n
      · simp at ht2
        exact absurd ht2.1 h1
      · rw [List.replicate_succ] at ht2
        simp at ht2
        exact absurd ht2.1 h2
      · rw [List.replicate_succ, List.replicate_succ] at ht2
        simp at ht2

theorem has_pad_replicate (n : Nat) : has_pad (List.replicate n ' ') = false := by
  induction n with
  | zero => rfl
  | succ n ih =>
    rw [List.replicate_succ, has_pad, ih]
    cases hst : starts_pad (' ' :: List.replicate n ' ') with
    | false => rfl
    | true =>
      obtain ⟨t, ht⟩ := starts_pad_spec hst
      injection ht with _ ht2
      rcases n with _ | _ | n
      · simp at ht2
      · rw [List.replicate_succ] at ht2
        simp at ht2
      · rw [List.replicate_succ, List.replicate_succ] at ht2
        simp at ht2

theorem collapse_no_pad : ∀ (l : List Char) (pending : Nat),
    has_pad (collapse_pad_aux pending l) = false := by
  intro l
  induction l with
  | nil =>
    intro pending
    rw [collapse_pad_aux]
    exact has_pad_replicate pending
  | cons ch rest ih =>
    intro pending
    by_cases h1 : ch = ' '
    · subst h1
      rw [collapse_cons_space]
      exact ih (pending + 1)
    by_cases h2 : ch = '#'
    · subst h2
      rw [collapse_pad_aux]
      rw [if_neg h1, if_pos rfl]
      by_cases hp : pending = 0
      · rw [if_pos hp]
        exact has_pad_cons_safe (by decide) (ih 0)
      · rw [if_neg hp]
        rw [has_pad]
        rw [has_pad_cons_safe (by decide : ('#' : Char) ≠ ' ') (ih 0)]
        cases hst : starts_pad (' ' :: '#' :: collapse_pad_aux 0 rest) with
        | false => rfl
        | true =>
          obtain ⟨t, ht⟩ := starts_pad_spec hst
          simp at ht
    · rw [collapse_flush pending ch rest h1 h2]
      exact has_pad_spaces pending h1 h2 (ih 0)

theorem infix_has_pad {l : List Char}
    (h : (' ' :: ' ' :: '#' :: []) <:+: l) : has_pad l = true := by
  obtain ⟨s, t, hst⟩ := h
  subst hst
  induction s with
  | nil => simp [has_pad, starts_pad]
  | cons a s ih =>
    rw [List.cons_append]
    simp only [has_pad, List.append_eq]
    rw [ih]
    simp

theorem collapse_spaces_hash : ∀ (k pending : Nat) (rest : List Char),
    1 ≤ pending + k →
    collapse_pad_aux pending (List.replicate k ' ' ++ '#' :: rest) =
      ' ' :: '#' :: collapse_pad_aux 0 rest := by
  intro k
  induction k with
  | zero =>
    intro pending rest h
    simp only [List.replicate_zero, List.nil_append]
    rw [collapse_pad_aux]
    rw [if_neg (by decide), if_pos rfl, if_neg (by omega)]
  | succ k ih =>
    intro pending rest h
    rw [List.replicate_succ, List.cons_append, collapse_cons_space]
    exact ih (pending + 1) rest (by omega)

/-- C9: comment-pad collapse in the `transform` pass.  `COMMENT_PAD_RE`
rewrites every run of one or more spaces immediately preceding a `#` to
exactly one space, and since `transform_line` ends with that substitution, no
output line of the pass contains two or more consecutive spaces directly
before a comment marker. -/
theorem comment_pad_collapse (yload : List Char → Nat) (l : List Char)
    (k : Nat) (rest : List Char) :
    ¬ (' ' :: ' ' :: '#' :: []) <:+: transform_line yload l ∧
    collapse_pad (List.replicate (k + 1) ' ' ++ '#' :: rest) =
      ' ' :: '#' :: collapse_pad rest := by
  constructor
  · intro hinf
    have h1 := infix_has_pad hinf
    have h2 : has_pad (transform_line yload l) = false := collapse_no_pad _ 0
    rw [h1] at h2
    exact Bool.noConfusion h2
  · simp only [collapse_pad]
    exact collapse_spaces_hash (k + 1) 0 rest (by omega)

theorem comment_pad_collapse_witness :
    collapse_pad (List.replicate (2 + 1) ' ' ++ '#' :: ('x' :: [])) =
      ' ' :: '#' :: collapse_pad ('x' :: []) :=
  (comment_pad_collapse (fun _ => 0) [] 2 ('x' :: [])).2

end ZmkLocale
